import Mathlib

/-!
# Key chaincode (`keygen.go`): a shallow embedding

The contract `KeyContract` of `keygen.go` stores one `KeyData` record per key in
the world state of a ledger and offers six transactions: `CreateKey`,
`CreateBulkKeys`, `CreateKeyWithImage`, `ConsumeKey`, `ReadKey`, `QueryAllKeys`.

Modelling decisions.

* Go `string` values (keys, transaction ids, image URLs, error texts) are Lean
  `String`s.  The ascending key order of a range scan is `keyLt`, the lexicographic
  order of the code points, which is the order of the UTF-8 bytes.
* Go `[]byte` values are `List UInt8`.
* The chaincode stub (`ctx.GetStub()`) is explicit state, `Stub`: the transaction id,
  the world state (an association list kept in ascending key order by `put`), the
  outcomes of the store calls still to come (`faults`, one entry consumed per call,
  `some e` meaning that the call returns the error `e`), and the range iterators
  opened and closed so far.  A read sees the writes made before it.
* `encoding/json` is outside the repository: `json.Marshal` / `json.Unmarshal` at type
  `KeyData` are the two fields of a `Codec`, a parameter of every transaction.  What
  is used of them is stated in `Codec.Lawful`.
* Errors built with `fmt.Errorf` are the constructors of `KeyError`; `KeyError.message`
  gives the text of each.  Responses are records with the fields of the Go maps.
-/

namespace KeyGen

/-! ## Data -/

/-- Go `[]byte`. -/
abbrev Bytes := List UInt8

/-- The record `KeyData` stored in world state for each key. -/
structure KeyData where
  Consumed : Bool
  TxID : String
  ImageURL : String
deriving DecidableEq, Repr

/-- The calls `json.Marshal(data)` and `json.Unmarshal(bytes, &data)` at type `KeyData`;
the error of `Unmarshal` is kept as its text. -/
structure Codec where
  marshal : KeyData → Bytes
  unmarshal : Bytes → Except String KeyData

/-- What the development uses of `encoding/json`: decoding an encoded record gives the
record back, and the empty input does not decode. -/
def Codec.Lawful (c : Codec) : Prop :=
  (∀ d : KeyData, c.unmarshal (c.marshal d) = .ok d) ∧
  (∀ d : KeyData, c.unmarshal [] ≠ .ok d)

/-- A Go slice: `none` is the nil slice (written `null` by `json.Marshal`), `some l` a
non-nil slice with the elements `l` (written as an array). -/
abbrev Slice (α : Type) := Option (List α)

/-- The elements of a slice; the nil slice has none. -/
def Slice.elems {α : Type} : Slice α → List α
  | none => []
  | some l => l

/-- Go `append(s, x)`: the result is never nil. -/
def Slice.append {α : Type} (s : Slice α) (x : α) : Slice α :=
  some (Slice.elems s ++ [x])

/-! ## World state -/

/-- The value stored under `k`, the empty byte string when there is none
(or a Go map lookup, with `dflt` the zero value). -/
def lookupD {β : Type} (dflt : β) (k : String) : List (String × β) → β
  | [] => dflt
  | (k', v) :: rest => if k = k' then v else lookupD dflt k rest

/-- Whether `k` has an entry. -/
def hasKey {β : Type} (k : String) : List (String × β) → Bool
  | [] => false
  | (k', _) :: rest => if k = k' then true else hasKey k rest

/-- Lexicographic comparison of two sequences of code points. -/
def ltChars : List Char → List Char → Bool
  | [], [] => false
  | [], _ :: _ => true
  | _ :: _, [] => false
  | a :: as, b :: bs =>
    if a.toNat < b.toNat then true
    else if a.toNat = b.toNat then ltChars as bs
    else false

/-- The order of keys in world state: `a` comes strictly before `b`. -/
def keyLt (a b : String) : Bool := ltChars a.data b.data

/-- Write `v` under `k`: an entry of `k` is replaced, a new one is inserted before the
first greater key. -/
def put {β : Type} (k : String) (v : β) : List (String × β) → List (String × β)
  | [] => [(k, v)]
  | (k', v') :: rest =>
    if keyLt k k' then (k, v) :: (k', v') :: rest
    else if k = k' then (k, v) :: rest
    else (k', v') :: put k v rest

/-- World state: the entries by ascending key. -/
abbrev World := List (String × Bytes)

/-- The bytes under `k` in world state; empty when `k` is absent. -/
def get (w : World) (k : String) : Bytes := lookupD [] k w

/-- The keys come in strictly ascending order. -/
def Ascending {β : Type} (w : List (String × β)) : Prop :=
  List.Pairwise (fun a b => keyLt a.1 b.1 = true) w

/-! ## The chaincode stub -/

/-- The state behind `ctx.GetStub()` during one transaction. -/
structure Stub where
  txID : String
  state : World
  faults : List (Option String)
  opened : List Nat
  closed : List Nat
deriving DecidableEq, Repr

/-- A range iterator: its number and the entries it has still to deliver. -/
structure Iterator where
  id : Nat
  rest : List (String × Bytes)
deriving DecidableEq, Repr

namespace Stub

/-- The outcome of the next store call, and the stub once the call is made. -/
def nextFault (st : Stub) : Option String × Stub :=
  match st.faults with
  | [] => (none, st)
  | f :: fs => (f, { st with faults := fs })

/-- No store call of the transaction fails. -/
def Reliable (st : Stub) : Prop := ∀ f ∈ st.faults, f = none

/-- `GetTxID()`. -/
def GetTxID (st : Stub) : String := st.txID

/-- `GetState(key)`. -/
def GetState (st : Stub) (key : String) : Except String Bytes × Stub :=
  match st.nextFault with
  | (some e, st1) => (.error e, st1)
  | (none, st1) => (.ok (get st1.state key), st1)

/-- `PutState(key, value)`; a failed write leaves world state as it was. -/
def PutState (st : Stub) (key : String) (value : Bytes) : Option String × Stub :=
  match st.nextFault with
  | (some e, st1) => (some e, st1)
  | (none, st1) => (none, { st1 with state := put key value st1.state })

/-- `GetStateByRange("", "")`: an iterator over all entries, by ascending key. -/
def GetStateByRange (st : Stub) : Except String Iterator × Stub :=
  match st.nextFault with
  | (some e, st1) => (.error e, st1)
  | (none, st1) =>
    (.ok { id := st1.opened.length, rest := st1.state },
     { st1 with opened := st1.opened ++ [st1.opened.length] })

/-- `iterator.Close()`; the deferred call ignores its error. -/
def Close (st : Stub) (it : Iterator) : Stub :=
  { st with closed := st.closed ++ [it.id] }

end Stub

/-! ## Errors and responses -/

/-- The errors the transactions return, one constructor per `fmt.Errorf` /
`errors.New` / returned `err`. -/
inductive KeyError where
  | readFailed (err : String)
  | alreadyExists (key : String)
  | putFailed (key err : String)
  | getStateFailed (key err : String)
  | notFound (key : String)
  | unmarshalFailed (key err : String)
  | alreadyConsumed
  | updateFailed (key err : String)
  | decodeFailed (err : String)
  | rangeFailed (err : String)
  | iterateFailed (err : String)
  | unmarshalKeyData (err : String)
deriving DecidableEq, Repr

/-- The text of an error. -/
def KeyError.message : KeyError → String
  | .readFailed err => "failed to read from world state: " ++ err
  | .alreadyExists key => "key " ++ key ++ " already exists"
  | .putFailed key err => "failed to put key " ++ key ++ " in world state: " ++ err
  | .getStateFailed key err => "failed to get state for " ++ key ++ ": " ++ err
  | .notFound key => "key " ++ key ++ " does not exist"
  | .unmarshalFailed key err => "failed to unmarshal data for key " ++ key ++ ": " ++ err
  | .alreadyConsumed => "the key is already consumed"
  | .updateFailed key err => "failed to update key " ++ key ++ ": " ++ err
  | .decodeFailed err => err
  | .rangeFailed err => "failed to get keys from world state: " ++ err
  | .iterateFailed err => "failed to iterate through keys: " ++ err
  | .unmarshalKeyData err => "failed to unmarshal key data: " ++ err

/-- The reasons `CreateBulkKeys` records in `failedKeys`. -/
inductive BulkFailure where
  | readFailed (err : String)
  | alreadyExists
  | putFailed (err : String)
deriving DecidableEq, Repr

/-- The text of a reason. -/
def BulkFailure.message : BulkFailure → String
  | .readFailed err => "Failed to read from world state: " ++ err
  | .alreadyExists => "Key already exists"
  | .putFailed err => "Failed to put key in world state: " ++ err

/-- Response of `CreateKey` and of `ConsumeKey`. -/
structure KeyResponse where
  message : String
  key : String
  transactionID : String
deriving DecidableEq, Repr

/-- Response of `CreateKeyWithImage`. -/
structure ImageResponse where
  message : String
  key : String
  transactionID : String
  imageURL : String
deriving DecidableEq, Repr

/-- Response of `CreateBulkKeys`; `failedKeys` is a Go map, held by ascending key as
`json.Marshal` writes it. -/
structure BulkResponse where
  message : String
  createdKeys : Slice String
  failedKeys : List (String × BulkFailure)
  transactionID : String
deriving DecidableEq, Repr

/-- Response of `ReadKey`; `imageURL` is `none` when the map has no such field. -/
structure ReadResponse where
  key : String
  consumed : Bool
  transactionID : String
  imageURL : Option String
deriving DecidableEq, Repr

/-- One element of `keys` in the response of `QueryAllKeys`. -/
structure KeyEntry where
  key : String
  transactionID : String
  consumed : Bool
deriving DecidableEq, Repr

/-- Response of `QueryAllKeys`. -/
structure QueryResponse where
  message : String
  keys : Slice KeyEntry
deriving DecidableEq, Repr

/-! ## The transactions -/

/-- `KeyContract.CreateKey`. -/
def CreateKey (c : Codec) (st : Stub) (key : String) : Except KeyError KeyResponse × Stub :=
  match st.GetState key with
  | (.error err, st1) => (.error (.readFailed err), st1)
  | (.ok existingBytes, st1) =>
    if existingBytes.length ≠ 0 then (.error (.alreadyExists key), st1)
    else
      let txID := st1.GetTxID
      let data : KeyData := { Consumed := false, TxID := txID, ImageURL := "" }
      let dataBytes := c.marshal data
      match st1.PutState key dataBytes with
      | (some err, st2) => (.error (.putFailed key err), st2)
      | (none, st2) =>
        (.ok { message := "Key created successfully", key := key, transactionID := txID }, st2)

/-- The body of the loop of `CreateBulkKeys` for one key: the stub, `createdKeys` and
`failedKeys` after it. -/
def bulkStep (c : Codec) (acc : Stub × Slice String × List (String × BulkFailure))
    (key : String) : Stub × Slice String × List (String × BulkFailure) :=
  match acc with
  | (st, createdKeys, failedKeys) =>
    match st.GetState key with
    | (.error err, st1) => (st1, createdKeys, put key (.readFailed err) failedKeys)
    | (.ok existingBytes, st1) =>
      if existingBytes.length ≠ 0 then (st1, createdKeys, put key .alreadyExists failedKeys)
      else
        let txID := st1.GetTxID
        let data : KeyData := { Consumed := false, TxID := txID, ImageURL := "" }
        let dataBytes := c.marshal data
        match st1.PutState key dataBytes with
        | (some err, st2) => (st2, createdKeys, put key (.putFailed err) failedKeys)
        | (none, st2) => (st2, Slice.append createdKeys key, failedKeys)

/-- The loop `for _, key := range keys` of `CreateBulkKeys`. -/
def bulkLoop (c : Codec) (keys : List String)
    (acc : Stub × Slice String × List (String × BulkFailure)) :
    Stub × Slice String × List (String × BulkFailure) :=
  keys.foldl (bulkStep c) acc

/-- `KeyContract.CreateBulkKeys`. -/
def CreateBulkKeys (c : Codec) (st : Stub) (keys : List String) :
    Except KeyError BulkResponse × Stub :=
  match bulkLoop c keys (st, some [], []) with
  | (st1, createdKeys, failedKeys) =>
    (.ok { message := "Bulk key creation completed", createdKeys := createdKeys,
           failedKeys := failedKeys, transactionID := st1.GetTxID }, st1)

/-- `KeyContract.CreateKeyWithImage`. -/
def CreateKeyWithImage (c : Codec) (st : Stub) (key imageURL : String) :
    Except KeyError ImageResponse × Stub :=
  match st.GetState key with
  | (.error err, st1) => (.error (.readFailed err), st1)
  | (.ok existingBytes, st1) =>
    if existingBytes.length ≠ 0 then (.error (.alreadyExists key), st1)
    else
      let txID := st1.GetTxID
      let data : KeyData := { Consumed := false, TxID := txID, ImageURL := imageURL }
      let dataBytes := c.marshal data
      match st1.PutState key dataBytes with
      | (some err, st2) => (.error (.putFailed key err), st2)
      | (none, st2) =>
        (.ok { message := "Key with image created successfully", key := key,
               transactionID := txID, imageURL := imageURL }, st2)

/-- `KeyContract.ConsumeKey`. -/
def ConsumeKey (c : Codec) (st : Stub) (key : String) : Except KeyError KeyResponse × Stub :=
  match st.GetState key with
  | (.error err, st1) => (.error (.getStateFailed key err), st1)
  | (.ok existingBytes, st1) =>
    if existingBytes.length = 0 then (.error (.notFound key), st1)
    else
      match c.unmarshal existingBytes with
      | .error err => (.error (.unmarshalFailed key err), st1)
      | .ok data =>
        if data.Consumed then (.error .alreadyConsumed, st1)
        else
          let data := { data with Consumed := true }
          let dataBytes := c.marshal data
          match st1.PutState key dataBytes with
          | (some err, st2) => (.error (.updateFailed key err), st2)
          | (none, st2) =>
            (.ok { message := "Key consumed successfully", key := key,
                   transactionID := st2.GetTxID }, st2)

/-- `KeyContract.ReadKey`. -/
def ReadKey (c : Codec) (st : Stub) (key : String) : Except KeyError ReadResponse × Stub :=
  match st.GetState key with
  | (.error err, st1) => (.error (.readFailed err), st1)
  | (.ok dataBytes, st1) =>
    if dataBytes.length = 0 then (.error (.notFound key), st1)
    else
      match c.unmarshal dataBytes with
      | .error err => (.error (.decodeFailed err), st1)
      | .ok data =>
        (.ok { key := key, consumed := data.Consumed, transactionID := data.TxID,
               imageURL := if data.ImageURL ≠ "" then some data.ImageURL else none }, st1)

/-- The loop `for iterator.HasNext()` of `QueryAllKeys` over the entries the iterator has
still to deliver: each round calls `iterator.Next()`, decodes the value and appends to
`keys`. -/
def queryLoop (c : Codec) : List (String × Bytes) → Slice KeyEntry → Stub →
    Except KeyError (Slice KeyEntry) × Stub
  | [], keys, st => (.ok keys, st)
  | (k, v) :: rest, keys, st =>
    match st.nextFault with
    | (some err, st1) => (.error (.iterateFailed err), st1)
    | (none, st1) =>
      match c.unmarshal v with
      | .error err => (.error (.unmarshalKeyData err), st1)
      | .ok data =>
        queryLoop c rest
          (Slice.append keys { key := k, transactionID := data.TxID, consumed := data.Consumed })
          st1

/-- `KeyContract.QueryAllKeys`; the deferred `iterator.Close()` runs on every return
that follows the opening of the iterator. -/
def QueryAllKeys (c : Codec) (st : Stub) : Except KeyError QueryResponse × Stub :=
  match st.GetStateByRange with
  | (.error err, st1) => (.error (.rangeFailed err), st1)
  | (.ok iterator, st1) =>
    match queryLoop c iterator.rest none st1 with
    | (.error e, st2) => (.error e, st2.Close iterator)
    | (.ok keys, st2) =>
      (.ok { message := "All keys retrieved successfully", keys := keys }, st2.Close iterator)

/-! ## A concrete codec

`demoCodec` is a small self-delimiting encoding of `KeyData` that satisfies `Codec.Lawful`;
it instantiates the parameter where a statement is evaluated on concrete data. -/

/-- A code point as three bytes, most significant first. -/
def encodeChar (ch : Char) : List UInt8 :=
  [UInt8.ofNat (ch.toNat / 65536), UInt8.ofNat (ch.toNat / 256 % 256),
   UInt8.ofNat (ch.toNat % 256)]

/-- Each character is written as the byte 1 and its three bytes; the byte 0 ends the text. -/
def encodeChars : List Char → Bytes
  | [] => [0]
  | ch :: cs => 1 :: (encodeChar ch ++ encodeChars cs)

/-- Read a text written by `encodeChars`, returning it with the bytes that follow. -/
def decodeChars : Bytes → Option (List Char × Bytes)
  | [] => none
  | b :: rest =>
    if b = 0 then some ([], rest)
    else
      match rest with
      | b2 :: b1 :: b0 :: rest1 =>
        match decodeChars rest1 with
        | some (cs, rest2) =>
          some (Char.ofNat (b2.toNat * 65536 + b1.toNat * 256 + b0.toNat) :: cs, rest2)
        | none => none
      | _ => none

/-- The flag byte, the transaction id, the image URL. -/
def demoMarshal (d : KeyData) : Bytes :=
  (if d.Consumed then 1 else 0) :: (encodeChars d.TxID.data ++ encodeChars d.ImageURL.data)

/-- Inverse of `demoMarshal`; anything else is an error. -/
def demoUnmarshal : Bytes → Except String KeyData
  | [] => .error "unexpected end of input"
  | flag :: rest =>
    if flag = 0 ∨ flag = 1 then
      match decodeChars rest with
      | some (tx, rest1) =>
        match decodeChars rest1 with
        | some (img, []) =>
          .ok { Consumed := decide (flag = 1), TxID := String.mk tx, ImageURL := String.mk img }
        | _ => .error "invalid image URL"
      | none => .error "invalid transaction id"
    else .error "invalid flag"

/-- The concrete codec. -/
def demoCodec : Codec := { marshal := demoMarshal, unmarshal := demoUnmarshal }

/-- A stub at the start of a transaction `txID` on world state `w` in which no store call
fails. -/
def Stub.start (txID : String) (w : World) : Stub :=
  { txID := txID, state := w, faults := [], opened := [], closed := [] }

/-! ## Transactions as data -/

/-- A call of one of the six transactions with its arguments. -/
inductive Op where
  | createKey (key : String)
  | createBulkKeys (keys : List String)
  | createKeyWithImage (key imageURL : String)
  | consumeKey (key : String)
  | readKey (key : String)
  | queryAllKeys
deriving DecidableEq, Repr

/-- The stub after the call `op` has run on `st`. -/
def Op.after (c : Codec) (st : Stub) : Op → Stub
  | .createKey key => (CreateKey c st key).2
  | .createBulkKeys keys => (CreateBulkKeys c st keys).2
  | .createKeyWithImage key imageURL => (CreateKeyWithImage c st key imageURL).2
  | .consumeKey key => (ConsumeKey c st key).2
  | .readKey key => (ReadKey c st key).2
  | .queryAllKeys => (QueryAllKeys c st).2

/-- World state `w2` keeps the records of `w1`: a key with bytes in `w1` has bytes in `w2`,
and where the bytes of `w1` decode, those of `w2` decode to a record with the same `txID`
and `imageURL`, consumed if it was consumed. -/
def Keeps (c : Codec) (w1 w2 : World) : Prop :=
  ∀ k, get w1 k ≠ [] →
    get w2 k ≠ [] ∧
    ∀ d, c.unmarshal (get w1 k) = .ok d →
      ∃ d2, c.unmarshal (get w2 k) = .ok d2 ∧ d2.TxID = d.TxID ∧ d2.ImageURL = d.ImageURL ∧
        (d.Consumed = true → d2.Consumed = true)

/-- The bytes of every key that has bytes stay as they are. -/
def Untouched (w1 w2 : World) : Prop := ∀ k, get w1 k ≠ [] → get w2 k = get w1 k

/-- The distinct keys of a list, in the order of their first occurrences. -/
def firstOccurrences : List String → List String
  | [] => []
  | k :: ks => k :: (firstOccurrences ks).filter (fun x => decide (x ≠ k))

/-- The specification's reading of `CreateBulkKeys`: `CreateKey` is applied to each key of
the list in input order, within the same transaction, and the calls that fail are passed
over.  The result is the stub at the end, the keys whose call succeeded and the keys whose
call failed, both in input order. -/
def sequentialCreate (c : Codec) : List String → Stub → Stub × List String × List String
  | [], st => (st, [], [])
  | k :: ks, st =>
    match CreateKey c st k with
    | (.ok _, st1) =>
      match sequentialCreate c ks st1 with
      | (st2, created, failed) => (st2, k :: created, failed)
    | (.error _, st1) =>
      match sequentialCreate c ks st1 with
      | (st2, created, failed) => (st2, created, k :: failed)

/-- The stub of `CreateBulkKeys` on `st` when its loop has gone through the keys `pre`. -/
def bulkReached (c : Codec) (st : Stub) (pre : List String) : Stub :=
  (bulkLoop c pre (st, some [], [])).1

/-- World state after the transactions `CreateKey(k)` with id `t`, for the pairs `(k, t)`
of the list in order, each in a transaction of its own without store errors. -/
def createAll (c : Codec) : World → List (String × String) → World
  | w, [] => w
  | w, (k, t) :: rest => createAll c (CreateKey c (Stub.start t w) k).2.state rest

/-- The element of `keys` that `QueryAllKeys` builds from the key `k` and the record
`data`. -/
def KeyEntry.of (k : String) (data : KeyData) : KeyEntry :=
  { key := k, transactionID := data.TxID, consumed := data.Consumed }

/-- The entry `e` of the response is the one of the pair `kv` of world state: same key,
and the `txID` and `consumed` of the record the value decodes to. -/
def EntryOf (c : Codec) (e : KeyEntry) (kv : String × Bytes) : Prop :=
  ∃ d, c.unmarshal kv.2 = .ok d ∧ e = KeyEntry.of kv.1 d

/-- The next round of the loop of `CreateBulkKeys`, run on `st` for `key`, creates the key:
the read succeeds, `key` has no bytes, and the write succeeds.  Any other round records a
failure of `key`. -/
def Stub.Creates (st : Stub) (key : String) : Prop :=
  st.nextFault.1 = none ∧ get st.state key = [] ∧ st.nextFault.2.nextFault.1 = none

/-! ## Lemmas: the key order -/

theorem ltChars_irrefl (a : List Char) : ltChars a a = false := by
  induction a with
  | nil => rfl
  | cons x xs ih => simp [ltChars, ih]

theorem char_eq_of_toNat_eq {a b : Char} (h : a.toNat = b.toNat) : a = b := by
  rw [← Char.ofNat_toNat a, ← Char.ofNat_toNat b, h]

theorem ltChars_trans : ∀ (a b c : List Char),
    ltChars a b = true → ltChars b c = true → ltChars a c = true
  | [], [], _, h, _ => by simp [ltChars] at h
  | [], _ :: _, [], _, h => by simp [ltChars] at h
  | [], _ :: _, _ :: _, _, _ => by simp [ltChars]
  | _ :: _, [], _, h, _ => by simp [ltChars] at h
  | _ :: _, _ :: _, [], _, h => by simp [ltChars] at h
  | x :: xs, y :: ys, z :: zs, h1, h2 => by
    simp only [ltChars] at h1 h2 ⊢
    by_cases hxy : x.toNat < y.toNat
    · by_cases hyz : y.toNat < z.toNat
      · have : x.toNat < z.toNat := lt_trans hxy hyz
        simp [this]
      · by_cases hyz2 : y.toNat = z.toNat
        · have : x.toNat < z.toNat := hyz2 ▸ hxy
          simp [this]
        · simp [hyz, hyz2] at h2
    · by_cases hxy2 : x.toNat = y.toNat
      · simp only [hxy, hxy2, if_true, if_false, lt_self_iff_false] at h1
        by_cases hyz : y.toNat < z.toNat
        · have : x.toNat < z.toNat := hxy2 ▸ hyz
          simp [this]
        · by_cases hyz2 : y.toNat = z.toNat
          · simp only [hyz, hyz2, if_true, if_false, lt_self_iff_false] at h2
            have ih := ltChars_trans xs ys zs h1 h2
            simp [hxy2, hyz2, ih]
          · simp [hyz, hyz2] at h2
      · simp [hxy, hxy2] at h1

theorem ltChars_total : ∀ (a b : List Char),
    ltChars a b = false → a ≠ b → ltChars b a = true
  | [], [], _, h => absurd rfl h
  | [], _ :: _, h, _ => by simp [ltChars] at h
  | _ :: _, [], _, _ => by simp [ltChars]
  | x :: xs, y :: ys, h, hne => by
    simp only [ltChars] at h ⊢
    by_cases hxy : x.toNat < y.toNat
    · simp [hxy] at h
    · by_cases hxy2 : x.toNat = y.toNat
      · simp only [hxy, hxy2, if_true, if_false, lt_self_iff_false] at h
        have hx : x = y := char_eq_of_toNat_eq hxy2
        subst hx
        have hne2 : xs ≠ ys := fun e => hne (by rw [e])
        simp [ltChars_total xs ys h hne2]
      · have : y.toNat < x.toNat := by omega
        simp [this]

theorem keyLt_irrefl (a : String) : keyLt a a = false := ltChars_irrefl a.data

theorem keyLt_trans {a b c : String} (h1 : keyLt a b = true) (h2 : keyLt b c = true) :
    keyLt a c = true := ltChars_trans _ _ _ h1 h2

theorem keyLt_total {a b : String} (h : keyLt a b = false) (hne : a ≠ b) :
    keyLt b a = true := by
  apply ltChars_total _ _ h
  intro e
  exact hne (String.ext e)

theorem keyLt_ne {a b : String} (h : keyLt a b = true) : a ≠ b := by
  intro e
  subst e
  rw [keyLt_irrefl] at h
  exact Bool.noConfusion h

/-! ## Lemmas: the concrete codec -/

theorem char_toNat_lt (ch : Char) : ch.toNat < 1114112 := by
  have h := ch.valid
  unfold Char.toNat
  rcases h with h | h
  · exact lt_trans h (by decide)
  · exact h.2

theorem decode_encodeChar (ch : Char) :
    Char.ofNat ((UInt8.ofNat (ch.toNat / 65536)).toNat * 65536 +
      (UInt8.ofNat (ch.toNat / 256 % 256)).toNat * 256 +
      (UInt8.ofNat (ch.toNat % 256)).toNat) = ch := by
  have h := char_toNat_lt ch
  have e : ∀ n : Nat, (UInt8.ofNat n).toNat = n % 256 := fun _ => rfl
  rw [e, e, e]
  have : ch.toNat / 65536 % 256 * 65536 + ch.toNat / 256 % 256 % 256 * 256 +
      ch.toNat % 256 % 256 = ch.toNat := by omega
  rw [this, Char.ofNat_toNat]

theorem decodeChars_encodeChars (cs : List Char) (rest : Bytes) :
    decodeChars (encodeChars cs ++ rest) = some (cs, rest) := by
  induction cs with
  | nil =>
    show decodeChars (0 :: rest) = some ([], rest)
    unfold decodeChars
    simp
  | cons ch cs ih =>
    show decodeChars (1 :: UInt8.ofNat (ch.toNat / 65536) :: UInt8.ofNat (ch.toNat / 256 % 256)
      :: UInt8.ofNat (ch.toNat % 256) :: (encodeChars cs ++ rest)) = some (ch :: cs, rest)
    unfold decodeChars
    simp [ih, decode_encodeChar]

theorem demoCodec_lawful : demoCodec.Lawful := by
  refine ⟨fun d => ?_, fun d h => ?_⟩
  · obtain ⟨cons, tx, img⟩ := d
    show demoUnmarshal (demoMarshal _) = _
    simp only [demoMarshal, demoUnmarshal]
    have h2 : decodeChars (encodeChars img.data) = some (img.data, []) := by
      simpa using decodeChars_encodeChars img.data []
    cases cons <;> simp [decodeChars_encodeChars, h2]
  · simp [demoCodec, demoUnmarshal] at h

/-! ## Lemmas: the stub -/

@[simp] theorem Stub.nextFault_state (st : Stub) : st.nextFault.2.state = st.state := by
  unfold Stub.nextFault; cases st.faults <;> rfl

@[simp] theorem Stub.nextFault_txID (st : Stub) : st.nextFault.2.txID = st.txID := by
  unfold Stub.nextFault; cases st.faults <;> rfl

@[simp] theorem Stub.nextFault_opened (st : Stub) : st.nextFault.2.opened = st.opened := by
  unfold Stub.nextFault; cases st.faults <;> rfl

@[simp] theorem Stub.nextFault_closed (st : Stub) : st.nextFault.2.closed = st.closed := by
  unfold Stub.nextFault; cases st.faults <;> rfl

theorem Stub.Reliable.fst {st : Stub} (h : st.Reliable) : st.nextFault.1 = none := by
  unfold Stub.nextFault
  cases hf : st.faults with
  | nil => rfl
  | cons f fs => exact h f (by rw [hf]; exact List.mem_cons_self _ _)

theorem Stub.Reliable.snd {st : Stub} (h : st.Reliable) : st.nextFault.2.Reliable := by
  unfold Stub.nextFault
  cases hf : st.faults with
  | nil => simpa [hf] using h
  | cons f fs =>
    intro g hg
    exact h g (by rw [hf]; exact List.mem_cons_of_mem _ hg)

theorem Stub.start_reliable (t : String) (w : World) : (Stub.start t w).Reliable := by
  intro f hf
  cases hf

theorem Stub.GetState_ok {st : Stub} (h : st.nextFault.1 = none) (key : String) :
    st.GetState key = (.ok (get st.state key), st.nextFault.2) := by
  unfold Stub.GetState
  rcases hp : st.nextFault with ⟨f, st1⟩
  rw [hp] at h
  simp only at h
  subst h
  have : st1.state = st.state := by rw [← Stub.nextFault_state st, hp]
  simp [this]

theorem Stub.GetState_error {st : Stub} {e : String} (h : st.nextFault.1 = some e)
    (key : String) : st.GetState key = (.error e, st.nextFault.2) := by
  unfold Stub.GetState
  rcases hp : st.nextFault with ⟨f, st1⟩
  rw [hp] at h
  simp only at h
  subst h
  rfl

theorem Stub.PutState_ok {st : Stub} (h : st.nextFault.1 = none) (key : String) (v : Bytes) :
    st.PutState key v = (none, { st.nextFault.2 with state := put key v st.state }) := by
  unfold Stub.PutState
  rcases hp : st.nextFault with ⟨f, st1⟩
  rw [hp] at h
  simp only at h
  subst h
  have : st1.state = st.state := by rw [← Stub.nextFault_state st, hp]
  simp [this]

theorem Stub.PutState_error {st : Stub} {e : String} (h : st.nextFault.1 = some e)
    (key : String) (v : Bytes) : st.PutState key v = (some e, st.nextFault.2) := by
  unfold Stub.PutState
  rcases hp : st.nextFault with ⟨f, st1⟩
  rw [hp] at h
  simp only at h
  subst h
  rfl

/-- The outcome of a store call is an error or none. -/
theorem Stub.nextFault_cases (st : Stub) :
    st.nextFault.1 = none ∨ ∃ e, st.nextFault.1 = some e := by
  cases h : st.nextFault.1 with
  | none => exact Or.inl rfl
  | some e => exact Or.inr ⟨e, rfl⟩

/-! ## Lemmas: the transactions, case by case -/

theorem CreateKey_readFailed (c : Codec) {st : Stub} {e : String} (key : String)
    (h : st.nextFault.1 = some e) :
    CreateKey c st key = (.error (.readFailed e), st.nextFault.2) := by
  unfold CreateKey
  rw [Stub.GetState_error h]

theorem CreateKey_present (c : Codec) {st : Stub} {key : String}
    (h : st.nextFault.1 = none) (hp : get st.state key ≠ []) :
    CreateKey c st key = (.error (.alreadyExists key), st.nextFault.2) := by
  unfold CreateKey
  rw [Stub.GetState_ok h]
  simp [hp]

theorem CreateKey_putFailed (c : Codec) {st : Stub} {key e : String}
    (h : st.nextFault.1 = none) (ha : get st.state key = [])
    (hw : st.nextFault.2.nextFault.1 = some e) :
    CreateKey c st key = (.error (.putFailed key e), st.nextFault.2.nextFault.2) := by
  unfold CreateKey
  rw [Stub.GetState_ok h]
  simp only [ha, List.length_nil, ne_eq, not_true_eq_false, if_false]
  rw [Stub.PutState_error hw]

theorem CreateKey_created (c : Codec) {st : Stub} {key : String}
    (h : st.nextFault.1 = none) (ha : get st.state key = [])
    (hw : st.nextFault.2.nextFault.1 = none) :
    CreateKey c st key =
      (.ok { message := "Key created successfully", key := key, transactionID := st.txID },
       { st.nextFault.2.nextFault.2 with
         state := put key (c.marshal { Consumed := false, TxID := st.txID, ImageURL := "" })
           st.state }) := by
  unfold CreateKey
  rw [Stub.GetState_ok h]
  simp only [ha, List.length_nil, ne_eq, not_true_eq_false, if_false]
  rw [Stub.PutState_ok hw]
  simp [Stub.GetTxID]

/-! ## Lemmas: world state -/

theorem put_cons_lt {β : Type} {k k' : String} (h : keyLt k k' = true) (v v' : β)
    (rest : List (String × β)) : put k v ((k', v') :: rest) = (k, v) :: (k', v') :: rest := by
  simp [put, h]

theorem put_cons_eq {β : Type} (k : String) (v v' : β) (rest : List (String × β)) :
    put k v ((k, v') :: rest) = (k, v) :: rest := by
  simp [put, keyLt_irrefl]

theorem put_cons_gt {β : Type} {k k' : String} (h : keyLt k k' = false) (hne : k ≠ k')
    (v v' : β) (rest : List (String × β)) :
    put k v ((k', v') :: rest) = (k', v') :: put k v rest := by
  simp [put, h, hne]

/-- The three ways `put` meets the first entry. -/
theorem put_cons_cases {β : Type} (k k' : String) (v v' : β) (rest : List (String × β)) :
    (keyLt k k' = true ∧ put k v ((k', v') :: rest) = (k, v) :: (k', v') :: rest) ∨
    (k = k' ∧ put k v ((k', v') :: rest) = (k, v) :: rest) ∨
    (keyLt k k' = false ∧ k ≠ k' ∧ put k v ((k', v') :: rest) = (k', v') :: put k v rest) := by
  cases h1 : keyLt k k' with
  | true => exact Or.inl ⟨rfl, put_cons_lt h1 v v' rest⟩
  | false =>
    by_cases h2 : k = k'
    · subst h2
      exact Or.inr (Or.inl ⟨rfl, put_cons_eq k v v' rest⟩)
    · exact Or.inr (Or.inr ⟨rfl, h2, put_cons_gt h1 h2 v v' rest⟩)

theorem lookupD_put_same {β : Type} (dflt : β) (k : String) (v : β) (w : List (String × β)) :
    lookupD dflt k (put k v w) = v := by
  induction w with
  | nil => simp [put, lookupD]
  | cons e rest ih =>
    obtain ⟨k', v'⟩ := e
    rcases put_cons_cases k k' v v' rest with ⟨_, h⟩ | ⟨_, h⟩ | ⟨_, hne, h⟩
    · rw [h]; simp [lookupD]
    · rw [h]; simp [lookupD]
    · rw [h]; simp [lookupD, hne, ih]

theorem lookupD_put_other {β : Type} (dflt : β) {k k' : String} (hk : k' ≠ k) (v : β)
    (w : List (String × β)) : lookupD dflt k' (put k v w) = lookupD dflt k' w := by
  induction w with
  | nil => simp [put, lookupD, hk]
  | cons e rest ih =>
    obtain ⟨k2, v2⟩ := e
    rcases put_cons_cases k k2 v v2 rest with ⟨_, h⟩ | ⟨h2, h⟩ | ⟨_, hne, h⟩
    · rw [h]; simp [lookupD, hk]
    · rw [h]; subst h2; simp [lookupD, hk]
    · rw [h]; simp [lookupD, ih]

theorem get_put_same (k : String) (v : Bytes) (w : World) : get (put k v w) k = v :=
  lookupD_put_same [] k v w

theorem get_put_other {k k' : String} (h : k' ≠ k) (v : Bytes) (w : World) :
    get (put k v w) k' = get w k' :=
  lookupD_put_other [] h v w

theorem hasKey_put {β : Type} (k k' : String) (v : β) (w : List (String × β)) :
    hasKey k' (put k v w) = (decide (k' = k) || hasKey k' w) := by
  induction w with
  | nil => simp [put, hasKey]
  | cons e rest ih =>
    obtain ⟨k2, v2⟩ := e
    rcases put_cons_cases k k2 v v2 rest with ⟨_, h⟩ | ⟨h2, h⟩ | ⟨_, hne, h⟩
    · rw [h]; simp [hasKey]
    · rw [h]; subst h2
      by_cases h3 : k' = k <;> simp [hasKey, h3]
    · rw [h]
      by_cases h3 : k' = k2
      · simp [hasKey, h3]
      · simp [hasKey, h3, ih]

theorem hasKey_iff_mem {β : Type} (k : String) (w : List (String × β)) :
    hasKey k w = true ↔ k ∈ w.map Prod.fst := by
  induction w with
  | nil => simp [hasKey]
  | cons e rest ih =>
    obtain ⟨k2, v2⟩ := e
    by_cases h : k = k2
    · simp [hasKey, h]
    · simp [hasKey, h, ih]

theorem mem_put {β : Type} {k : String} {v : β} {w : List (String × β)} {x : String × β}
    (hx : x ∈ put k v w) : x = (k, v) ∨ x ∈ w := by
  induction w with
  | nil => simpa [put] using hx
  | cons e rest ih =>
    obtain ⟨k2, v2⟩ := e
    rcases put_cons_cases k k2 v v2 rest with ⟨_, h⟩ | ⟨h2, h⟩ | ⟨_, hne, h⟩
    · rw [h] at hx
      exact List.mem_cons.mp hx
    · rw [h] at hx
      rcases List.mem_cons.mp hx with hx | hx
      · exact Or.inl hx
      · exact Or.inr (List.mem_cons_of_mem _ hx)
    · rw [h] at hx
      rcases List.mem_cons.mp hx with hx | hx
      · exact Or.inr (by rw [hx]; exact List.mem_cons_self _ _)
      · rcases ih hx with hx | hx
        · exact Or.inl hx
        · exact Or.inr (List.mem_cons_of_mem _ hx)

theorem keys_put {β : Type} (k k' : String) (v : β) (w : List (String × β)) :
    k' ∈ (put k v w).map Prod.fst ↔ k' = k ∨ k' ∈ w.map Prod.fst := by
  rw [← hasKey_iff_mem, ← hasKey_iff_mem, hasKey_put]
  simp

theorem ascending_put {β : Type} (k : String) (v : β) {w : List (String × β)}
    (hw : Ascending w) : Ascending (put k v w) := by
  induction w with
  | nil => simp [put, Ascending]
  | cons e rest ih =>
    obtain ⟨k2, v2⟩ := e
    unfold Ascending at hw ih ⊢
    rw [List.pairwise_cons] at hw
    rcases put_cons_cases k k2 v v2 rest with ⟨h1, h⟩ | ⟨h2, h⟩ | ⟨h1, hne, h⟩
    · rw [h, List.pairwise_cons, List.pairwise_cons]
      refine ⟨?_, hw⟩
      intro x hx
      rcases List.mem_cons.mp hx with hx | hx
      · rw [hx]; exact h1
      · exact keyLt_trans h1 (hw.1 x hx)
    · rw [h, List.pairwise_cons]
      subst h2
      exact ⟨hw.1, hw.2⟩
    · rw [h, List.pairwise_cons]
      refine ⟨?_, ih hw.2⟩
      intro x hx
      rcases mem_put hx with hx | hx
      · rw [hx]
        exact keyLt_total h1 hne
      · exact hw.1 x hx

theorem ascending_nodup {β : Type} {w : List (String × β)} (h : Ascending w) :
    (w.map Prod.fst).Nodup := by
  unfold Ascending at h
  unfold List.Nodup
  rw [List.pairwise_map]
  exact h.imp (fun hab => keyLt_ne hab)

theorem get_of_mem {w : World} (h : Ascending w) {e : String × Bytes} (he : e ∈ w) :
    get w e.1 = e.2 := by
  induction w with
  | nil => cases he
  | cons x rest ih =>
    obtain ⟨k2, v2⟩ := x
    unfold Ascending at h ih
    rw [List.pairwise_cons] at h
    rcases List.mem_cons.mp he with he | he
    · rw [he]
      simp [get, lookupD]
    · have hne : e.1 ≠ k2 := fun eq => keyLt_ne (h.1 e he) eq.symm
      have := ih h.2 he
      simpa [get, lookupD, hne] using this

theorem mem_keys_of_get_ne {w : World} {k : String} (h : get w k ≠ []) :
    k ∈ w.map Prod.fst := by
  rw [← hasKey_iff_mem]
  induction w with
  | nil => exact absurd rfl h
  | cons x rest ih =>
    obtain ⟨k2, v2⟩ := x
    by_cases hk : k = k2
    · simp [hasKey, hk]
    · simp only [get, lookupD, hk, if_false] at h
      simpa [hasKey, hk] using ih h

theorem Codec.Lawful.marshal_ne_nil {c : Codec} (hc : c.Lawful) (d : KeyData) :
    c.marshal d ≠ [] := by
  intro h
  have h1 := hc.1 d
  rw [h] at h1
  exact hc.2 d h1

theorem Codec.Lawful.ne_nil_of_decodes {c : Codec} (hc : c.Lawful) {b : Bytes} {d : KeyData}
    (h : c.unmarshal b = .ok d) : b ≠ [] := by
  intro e
  rw [e] at h
  exact hc.2 d h

theorem ConsumeKey_getStateFailed (c : Codec) {st : Stub} {e : String} (key : String)
    (h : st.nextFault.1 = some e) :
    ConsumeKey c st key = (.error (.getStateFailed key e), st.nextFault.2) := by
  unfold ConsumeKey
  rw [Stub.GetState_error h]

theorem ConsumeKey_notFound (c : Codec) {st : Stub} {key : String}
    (h : st.nextFault.1 = none) (ha : get st.state key = []) :
    ConsumeKey c st key = (.error (.notFound key), st.nextFault.2) := by
  unfold ConsumeKey
  rw [Stub.GetState_ok h]
  simp [ha]

theorem ConsumeKey_unmarshalFailed (c : Codec) {st : Stub} {key e : String}
    (h : st.nextFault.1 = none) (hp : get st.state key ≠ [])
    (hd : c.unmarshal (get st.state key) = .error e) :
    ConsumeKey c st key = (.error (.unmarshalFailed key e), st.nextFault.2) := by
  unfold ConsumeKey
  rw [Stub.GetState_ok h]
  simp [hp, hd]

theorem ConsumeKey_alreadyConsumed (c : Codec) {st : Stub} {key : String} {d : KeyData}
    (h : st.nextFault.1 = none) (hp : get st.state key ≠ [])
    (hd : c.unmarshal (get st.state key) = .ok d) (hcons : d.Consumed = true) :
    ConsumeKey c st key = (.error .alreadyConsumed, st.nextFault.2) := by
  unfold ConsumeKey
  rw [Stub.GetState_ok h]
  simp [hp, hd, hcons]

theorem ConsumeKey_updateFailed (c : Codec) {st : Stub} {key e : String} {d : KeyData}
    (h : st.nextFault.1 = none) (hp : get st.state key ≠ [])
    (hd : c.unmarshal (get st.state key) = .ok d) (hcons : d.Consumed = false)
    (hw : st.nextFault.2.nextFault.1 = some e) :
    ConsumeKey c st key = (.error (.updateFailed key e), st.nextFault.2.nextFault.2) := by
  unfold ConsumeKey
  rw [Stub.GetState_ok h]
  simp only [List.length_eq_zero, hp, if_false, hd, hcons, Bool.false_eq_true]
  rw [Stub.PutState_error hw]

theorem ConsumeKey_consumed (c : Codec) {st : Stub} {key : String} {d : KeyData}
    (h : st.nextFault.1 = none) (hp : get st.state key ≠ [])
    (hd : c.unmarshal (get st.state key) = .ok d) (hcons : d.Consumed = false)
    (hw : st.nextFault.2.nextFault.1 = none) :
    ConsumeKey c st key =
      (.ok { message := "Key consumed successfully", key := key, transactionID := st.txID },
       { st.nextFault.2.nextFault.2 with
         state := put key (c.marshal { d with Consumed := true }) st.state }) := by
  unfold ConsumeKey
  rw [Stub.GetState_ok h]
  simp only [List.length_eq_zero, hp, if_false, hd, hcons, Bool.false_eq_true]
  rw [Stub.PutState_ok hw]
  simp [Stub.GetTxID]

theorem ReadKey_readFailed (c : Codec) {st : Stub} {e : String} (key : String)
    (h : st.nextFault.1 = some e) :
    ReadKey c st key = (.error (.readFailed e), st.nextFault.2) := by
  unfold ReadKey
  rw [Stub.GetState_error h]

theorem ReadKey_notFound (c : Codec) {st : Stub} {key : String}
    (h : st.nextFault.1 = none) (ha : get st.state key = []) :
    ReadKey c st key = (.error (.notFound key), st.nextFault.2) := by
  unfold ReadKey
  rw [Stub.GetState_ok h]
  simp [ha]

theorem ReadKey_decodeFailed (c : Codec) {st : Stub} {key e : String}
    (h : st.nextFault.1 = none) (hp : get st.state key ≠ [])
    (hd : c.unmarshal (get st.state key) = .error e) :
    ReadKey c st key = (.error (.decodeFailed e), st.nextFault.2) := by
  unfold ReadKey
  rw [Stub.GetState_ok h]
  simp [hp, hd]

theorem ReadKey_found (c : Codec) {st : Stub} {key : String} {d : KeyData}
    (h : st.nextFault.1 = none) (hp : get st.state key ≠ [])
    (hd : c.unmarshal (get st.state key) = .ok d) :
    ReadKey c st key =
      (.ok { key := key, consumed := d.Consumed, transactionID := d.TxID,
             imageURL := if d.ImageURL ≠ "" then some d.ImageURL else none },
       st.nextFault.2) := by
  unfold ReadKey
  rw [Stub.GetState_ok h]
  simp [hp, hd]

/-- The stub never changes world state when a transaction reads only. -/
theorem ReadKey_state (c : Codec) (st : Stub) (key : String) :
    (ReadKey c st key).2 = st.nextFault.2 := by
  unfold ReadKey Stub.GetState
  rcases st.nextFault with ⟨f, st1⟩
  cases f with
  | some e => rfl
  | none =>
    simp only
    split
    · rfl
    · split <;> rfl

/-! ## CreateKey, ReadKey, ConsumeKey -/

/-- C1. `CreateKey(key)` when the read of world state succeeds: it returns the error
"key already exists" exactly when world state holds non-empty bytes under `key` (the bytes
are not decoded, so the `consumed` flag plays no part), and then it writes nothing; when
there are no bytes and the write succeeds, world state afterwards is the old one with the
encoding of `{consumed = false, txID = current transaction id, imageURL = ""}` written
under `key`, and the response carries that key and that transaction id. -/
theorem CreateKey_contract (c : Codec) (st : Stub) (key : String)
    (hread : st.nextFault.1 = none) :
    ((∃ k, (CreateKey c st key).1 = .error (.alreadyExists k)) ↔ get st.state key ≠ []) ∧
    (get st.state key ≠ [] →
      (CreateKey c st key).1 = .error (.alreadyExists key) ∧
      (CreateKey c st key).2.state = st.state) ∧
    (get st.state key = [] → st.nextFault.2.nextFault.1 = none →
      (CreateKey c st key).1 =
        .ok { message := "Key created successfully", key := key, transactionID := st.txID } ∧
      (CreateKey c st key).2.state =
        put key (c.marshal { Consumed := false, TxID := st.txID, ImageURL := "" }) st.state) := by
  refine ⟨⟨?_, ?_⟩, ?_, ?_⟩
  · rintro ⟨k, hk⟩ habs
    rcases Stub.nextFault_cases st.nextFault.2 with hw | ⟨e, hw⟩
    · rw [CreateKey_created c hread habs hw] at hk
      cases hk
    · rw [CreateKey_putFailed c hread habs hw] at hk
      cases hk
  · intro hp
    exact ⟨key, by rw [CreateKey_present c hread hp]⟩
  · intro hp
    rw [CreateKey_present c hread hp]
    exact ⟨rfl, Stub.nextFault_state st⟩
  · intro habs hw
    rw [CreateKey_created c hread habs hw]
    exact ⟨rfl, rfl⟩

/-- C1 at a concrete input: on world state holding a consumed record under "a", in a
transaction "t1" without store errors, `CreateKey("a")` fails with "already exists" and
`CreateKey("b")` writes the unconsumed record of "t1". -/
theorem CreateKey_contract_witness :
    (CreateKey demoCodec
        (Stub.start "t1" [("a", demoCodec.marshal { Consumed := true, TxID := "t0", ImageURL := "" })])
        "a").1 = .error (.alreadyExists "a") ∧
    (CreateKey demoCodec
        (Stub.start "t1" [("a", demoCodec.marshal { Consumed := true, TxID := "t0", ImageURL := "" })])
        "b").2.state =
      [("a", demoCodec.marshal { Consumed := true, TxID := "t0", ImageURL := "" }),
       ("b", demoCodec.marshal { Consumed := false, TxID := "t1", ImageURL := "" })] :=
  ⟨((CreateKey_contract demoCodec
      (Stub.start "t1" [("a", demoCodec.marshal { Consumed := true, TxID := "t0", ImageURL := "" })])
      "a" rfl).2.1 (by decide)).1,
   ((CreateKey_contract demoCodec
      (Stub.start "t1" [("a", demoCodec.marshal { Consumed := true, TxID := "t0", ImageURL := "" })])
      "b" rfl).2.2 (by decide) rfl).2⟩

/-- C2. In a transaction `st` (id `st.txID`) without store errors, on world state where
`k` is absent, `CreateKey(k)` succeeds; and `ReadKey(k)` run afterwards in any transaction
`rd` without store errors on the resulting world state succeeds and returns `key = k`,
`consumed = false`, `transactionID = st.txID` (and no image URL), whatever `rd.txID` is. -/
theorem CreateKey_then_ReadKey (c : Codec) (hc : c.Lawful) (st rd : Stub) (k : String)
    (habs : get st.state k = []) (hst : st.Reliable) (hrd : rd.Reliable)
    (hstate : rd.state = (CreateKey c st k).2.state) :
    (CreateKey c st k).1 =
      .ok { message := "Key created successfully", key := k, transactionID := st.txID } ∧
    (ReadKey c rd k).1 =
      .ok { key := k, consumed := false, transactionID := st.txID, imageURL := none } := by
  have hcr := CreateKey_created c hst.fst habs hst.snd.fst
  rw [hcr] at hstate
  simp only at hstate
  refine ⟨by rw [hcr], ?_⟩
  have hget : get rd.state k = c.marshal { Consumed := false, TxID := st.txID, ImageURL := "" } := by
    rw [hstate, get_put_same]
  have hd := hc.1 { Consumed := false, TxID := st.txID, ImageURL := "" }
  rw [← hget] at hd
  rw [ReadKey_found c hrd.fst (hc.ne_nil_of_decodes hd) hd]
  simp

/-- C2 at a concrete input: "k" created in transaction "t1" on the empty world state and
read in transaction "t2". -/
theorem CreateKey_then_ReadKey_witness :
    (ReadKey demoCodec (Stub.start "t2" (CreateKey demoCodec (Stub.start "t1" []) "k").2.state)
        "k").1 =
      .ok { key := "k", consumed := false, transactionID := "t1", imageURL := none } :=
  (CreateKey_then_ReadKey demoCodec demoCodec_lawful (Stub.start "t1" [])
    (Stub.start "t2" (CreateKey demoCodec (Stub.start "t1" []) "k").2.state) "k"
    rfl (Stub.start_reliable _ _) (Stub.start_reliable _ _) rfl).2

/-- C3. On world state holding under `key` bytes that decode to a record `d` with
`consumed = false`, in a transaction without store errors, `ConsumeKey(key)` succeeds; the
resulting world state is the old one with the encoding of `d` with `consumed = true`
written under `key`, so every other key holds the bytes it held, and the record under `key`
decodes to `consumed = true` with the `txID` and `imageURL` of `d`; a `ReadKey(key)`
afterwards returns `d.TxID`, not the id of the consuming transaction, and the image URL of
`d`. -/
theorem ConsumeKey_effect (c : Codec) (hc : c.Lawful) (st : Stub) (key : String) (d : KeyData)
    (hst : st.Reliable) (hd : c.unmarshal (get st.state key) = .ok d)
    (hun : d.Consumed = false) :
    (ConsumeKey c st key).1 =
      .ok { message := "Key consumed successfully", key := key, transactionID := st.txID } ∧
    (ConsumeKey c st key).2.state =
      put key (c.marshal { Consumed := true, TxID := d.TxID, ImageURL := d.ImageURL }) st.state ∧
    (∀ k, k ≠ key → get (ConsumeKey c st key).2.state k = get st.state k) ∧
    c.unmarshal (get (ConsumeKey c st key).2.state key) =
      .ok { Consumed := true, TxID := d.TxID, ImageURL := d.ImageURL } ∧
    (∀ rd : Stub, rd.Reliable → rd.state = (ConsumeKey c st key).2.state →
      (ReadKey c rd key).1 =
        .ok { key := key, consumed := true, transactionID := d.TxID,
              imageURL := if d.ImageURL ≠ "" then some d.ImageURL else none }) := by
  have hco := ConsumeKey_consumed c hst.fst (hc.ne_nil_of_decodes hd) hd hun hst.snd.fst
  have hdec : c.unmarshal (get (ConsumeKey c st key).2.state key) =
      .ok { Consumed := true, TxID := d.TxID, ImageURL := d.ImageURL } := by
    rw [hco]
    simp only
    rw [get_put_same]
    exact hc.1 _
  refine ⟨by rw [hco], by rw [hco], ?_, hdec, ?_⟩
  · intro k hk
    rw [hco]
    exact get_put_other hk _ _
  · intro rd hrd hstate
    rw [← hstate] at hdec
    rw [ReadKey_found c hrd.fst (hc.ne_nil_of_decodes hdec) hdec]

/-- C3 at a concrete input: the record of "k" was created in "t1" with the image "img";
it is consumed in "t2" and read in "t3". -/
theorem ConsumeKey_effect_witness :
    (ReadKey demoCodec
        (Stub.start "t3"
          (ConsumeKey demoCodec
            (Stub.start "t2"
              [("k", demoCodec.marshal { Consumed := false, TxID := "t1", ImageURL := "img" })])
            "k").2.state) "k").1 =
      .ok { key := "k", consumed := true, transactionID := "t1", imageURL := some "img" } :=
  (ConsumeKey_effect demoCodec demoCodec_lawful
    (Stub.start "t2" [("k", demoCodec.marshal { Consumed := false, TxID := "t1", ImageURL := "img" })])
    "k" { Consumed := false, TxID := "t1", ImageURL := "img" }
    (Stub.start_reliable _ _) rfl rfl).2.2.2.2 _ (Stub.start_reliable _ _) rfl

/-- C4. `k` holds a record `d` with `consumed = false`. `ConsumeKey(k)` in a transaction
`st` without store errors succeeds and leaves under `k` a record with `consumed = true`;
a second `ConsumeKey(k)`, in any transaction `st2` on the resulting world state whose read
succeeds, fails with "already consumed", leaves world state as it is (no write), and the
record under `k` still has `consumed = true`. -/
theorem ConsumeKey_twice (c : Codec) (hc : c.Lawful) (st st2 : Stub) (k : String) (d : KeyData)
    (hst : st.Reliable) (hd : c.unmarshal (get st.state k) = .ok d) (hun : d.Consumed = false)
    (hstate : st2.state = (ConsumeKey c st k).2.state) (hread : st2.nextFault.1 = none) :
    (ConsumeKey c st k).1 =
      .ok { message := "Key consumed successfully", key := k, transactionID := st.txID } ∧
    (∃ d1, c.unmarshal (get (ConsumeKey c st k).2.state k) = .ok d1 ∧ d1.Consumed = true) ∧
    (ConsumeKey c st2 k).1 = .error .alreadyConsumed ∧
    (ConsumeKey c st2 k).2.state = st2.state ∧
    (∃ d2, c.unmarshal (get (ConsumeKey c st2 k).2.state k) = .ok d2 ∧ d2.Consumed = true) := by
  have hco := ConsumeKey_consumed c hst.fst (hc.ne_nil_of_decodes hd) hd hun hst.snd.fst
  have h1 : (ConsumeKey c st k).1 =
      .ok { message := "Key consumed successfully", key := k, transactionID := st.txID } := by
    rw [hco]
  have hdec : c.unmarshal (get (ConsumeKey c st k).2.state k) =
      .ok { Consumed := true, TxID := d.TxID, ImageURL := d.ImageURL } := by
    rw [hco]
    simp only
    rw [get_put_same]
    exact hc.1 _
  have hdec2 := hdec
  rw [← hstate] at hdec2
  have h2 := ConsumeKey_alreadyConsumed c hread (hc.ne_nil_of_decodes hdec2) hdec2 rfl
  refine ⟨h1, ⟨_, hdec, rfl⟩, by rw [h2], by rw [h2]; exact Stub.nextFault_state st2, ?_⟩
  rw [h2]
  simp only [Stub.nextFault_state]
  exact ⟨_, hdec2, rfl⟩

/-- C4 at a concrete input: "k", created in "t1", is consumed in "t2" and again in "t3". -/
theorem ConsumeKey_twice_witness :
    (ConsumeKey demoCodec
        (Stub.start "t3"
          (ConsumeKey demoCodec
            (Stub.start "t2"
              [("k", demoCodec.marshal { Consumed := false, TxID := "t1", ImageURL := "" })])
            "k").2.state) "k").1 = .error .alreadyConsumed :=
  (ConsumeKey_twice demoCodec demoCodec_lawful
    (Stub.start "t2" [("k", demoCodec.marshal { Consumed := false, TxID := "t1", ImageURL := "" })])
    (Stub.start "t3"
      (ConsumeKey demoCodec
        (Stub.start "t2"
          [("k", demoCodec.marshal { Consumed := false, TxID := "t1", ImageURL := "" })])
        "k").2.state)
    "k" { Consumed := false, TxID := "t1", ImageURL := "" }
    (Stub.start_reliable _ _) rfl rfl rfl rfl).2.2.1

/-! ## Lemmas: what each transaction does to world state -/

theorem CreateKey_state (c : Codec) (st : Stub) (key : String) :
    (CreateKey c st key).2.state = st.state ∨
    (get st.state key = [] ∧
      (CreateKey c st key).2.state =
        put key (c.marshal { Consumed := false, TxID := st.txID, ImageURL := "" }) st.state) := by
  rcases Stub.nextFault_cases st with h | ⟨e, h⟩
  · by_cases hp : get st.state key = []
    · rcases Stub.nextFault_cases st.nextFault.2 with hw | ⟨e, hw⟩
      · rw [CreateKey_created c h hp hw]
        exact Or.inr ⟨hp, rfl⟩
      · rw [CreateKey_putFailed c h hp hw]
        simp
    · rw [CreateKey_present c h hp]
      simp
  · rw [CreateKey_readFailed c key h]
    simp

theorem CreateKeyWithImage_state (c : Codec) (st : Stub) (key imageURL : String) :
    (CreateKeyWithImage c st key imageURL).2.state = st.state ∨
    (get st.state key = [] ∧
      (CreateKeyWithImage c st key imageURL).2.state =
        put key (c.marshal { Consumed := false, TxID := st.txID, ImageURL := imageURL })
          st.state) := by
  unfold CreateKeyWithImage
  rcases Stub.nextFault_cases st with h | ⟨e, h⟩
  · rw [Stub.GetState_ok h]
    by_cases hp : get st.state key = []
    · simp only [hp, List.length_nil, ne_eq, not_true_eq_false, if_false]
      rcases Stub.nextFault_cases st.nextFault.2 with hw | ⟨e, hw⟩
      · rw [Stub.PutState_ok hw]
        simp [Stub.GetTxID]
      · rw [Stub.PutState_error hw]
        simp
    · simp [hp]
  · rw [Stub.GetState_error h]
    simp

theorem ConsumeKey_state (c : Codec) (st : Stub) (key : String) :
    (ConsumeKey c st key).2.state = st.state ∨
    (∃ d, get st.state key ≠ [] ∧ c.unmarshal (get st.state key) = .ok d ∧
      d.Consumed = false ∧
      (ConsumeKey c st key).2.state =
        put key (c.marshal { Consumed := true, TxID := d.TxID, ImageURL := d.ImageURL })
          st.state) := by
  rcases Stub.nextFault_cases st with h | ⟨e, h⟩
  · by_cases hp : get st.state key = []
    · rw [ConsumeKey_notFound c h hp]
      simp
    · cases hd : c.unmarshal (get st.state key) with
      | error e =>
        rw [ConsumeKey_unmarshalFailed c h hp hd]
        simp
      | ok d =>
        cases hcons : d.Consumed with
        | true =>
          rw [ConsumeKey_alreadyConsumed c h hp hd hcons]
          simp
        | false =>
          rcases Stub.nextFault_cases st.nextFault.2 with hw | ⟨e, hw⟩
          · rw [ConsumeKey_consumed c h hp hd hcons hw]
            exact Or.inr ⟨d, hp, rfl, hcons, rfl⟩
          · rw [ConsumeKey_updateFailed c h hp hd hcons hw]
            simp
  · rw [ConsumeKey_getStateFailed c key h]
    simp

theorem ReadKey_world (c : Codec) (st : Stub) (key : String) :
    (ReadKey c st key).2.state = st.state := by
  rw [ReadKey_state]
  exact Stub.nextFault_state st

theorem queryLoop_world (c : Codec) (l : List (String × Bytes)) (keys : Slice KeyEntry)
    (st : Stub) : (queryLoop c l keys st).2.state = st.state := by
  induction l generalizing keys st with
  | nil => rfl
  | cons e rest ih =>
    obtain ⟨k, v⟩ := e
    unfold queryLoop
    rcases hp : st.nextFault with ⟨f, st1⟩
    have hs : st1.state = st.state := by rw [← Stub.nextFault_state st, hp]
    cases f with
    | some err => exact hs
    | none =>
      simp only
      cases c.unmarshal v with
      | error err => exact hs
      | ok data =>
        simp only
        rw [ih]
        exact hs

theorem QueryAllKeys_world (c : Codec) (st : Stub) :
    (QueryAllKeys c st).2.state = st.state := by
  unfold QueryAllKeys Stub.GetStateByRange
  rcases hp : st.nextFault with ⟨f, st1⟩
  have hs : st1.state = st.state := by rw [← Stub.nextFault_state st, hp]
  cases f with
  | some err => exact hs
  | none =>
    simp only
    have hq := queryLoop_world c st1.state none
      { st1 with opened := st1.opened ++ [st1.opened.length] }
    rcases hr : queryLoop c st1.state none
      { st1 with opened := st1.opened ++ [st1.opened.length] } with ⟨r, st2⟩
    rw [hr] at hq
    cases r with
    | error e => simpa [Stub.Close, hs] using hq
    | ok keys => simpa [Stub.Close, hs] using hq

/-- One round of the loop of `CreateBulkKeys` leaves world state alone or writes a new
record under a key that had no bytes. -/
theorem bulkStep_state (c : Codec) (st : Stub) (cr : Slice String)
    (fk : List (String × BulkFailure)) (key : String) :
    (bulkStep c (st, cr, fk) key).1.state = st.state ∨
    (get st.state key = [] ∧
      (bulkStep c (st, cr, fk) key).1.state =
        put key (c.marshal { Consumed := false, TxID := st.txID, ImageURL := "" }) st.state) := by
  unfold bulkStep
  rcases Stub.nextFault_cases st with h | ⟨e, h⟩
  · simp only
    rw [Stub.GetState_ok h]
    by_cases hp : get st.state key = []
    · simp only [hp, List.length_nil, ne_eq, not_true_eq_false, if_false]
      rcases Stub.nextFault_cases st.nextFault.2 with hw | ⟨e, hw⟩
      · rw [Stub.PutState_ok hw]
        simp [Stub.GetTxID]
      · rw [Stub.PutState_error hw]
        simp
    · simp [hp]
  · simp only
    rw [Stub.GetState_error h]
    simp

theorem Untouched.refl (w : World) : Untouched w w := fun _ _ => rfl

theorem Untouched.trans {w1 w2 w3 : World} (h12 : Untouched w1 w2) (h23 : Untouched w2 w3) :
    Untouched w1 w3 := by
  intro k hk
  have h1 := h12 k hk
  have h2 := h23 k (by rw [h1]; exact hk)
  rw [h2, h1]

theorem Untouched.put_absent {w : World} {k : String} (h : get w k = []) (v : Bytes) :
    Untouched w (put k v w) := by
  intro k2 hk2
  have hne : k2 ≠ k := fun e => hk2 (by rw [e]; exact h)
  exact get_put_other hne v w

theorem Untouched.keeps (c : Codec) {w1 w2 : World} (h : Untouched w1 w2) : Keeps c w1 w2 := by
  intro k hk
  rw [h k hk]
  exact ⟨hk, fun d hd => ⟨d, hd, rfl, rfl, fun x => x⟩⟩

theorem bulkStep_untouched (c : Codec) (acc : Stub × Slice String × List (String × BulkFailure))
    (key : String) : Untouched acc.1.state (bulkStep c acc key).1.state := by
  obtain ⟨st, cr, fk⟩ := acc
  rcases bulkStep_state c st cr fk key with h | ⟨ha, h⟩
  · rw [h]; exact Untouched.refl _
  · rw [h]; exact Untouched.put_absent ha _

theorem bulkLoop_untouched (c : Codec) (keys : List String)
    (acc : Stub × Slice String × List (String × BulkFailure)) :
    Untouched acc.1.state (bulkLoop c keys acc).1.state := by
  induction keys generalizing acc with
  | nil => exact Untouched.refl _
  | cons k ks ih =>
    show Untouched acc.1.state (bulkLoop c ks (bulkStep c acc k)).1.state
    exact (bulkStep_untouched c acc k).trans (ih _)

theorem CreateBulkKeys_eq (c : Codec) (st : Stub) (keys : List String) :
    CreateBulkKeys c st keys =
      (.ok { message := "Bulk key creation completed",
             createdKeys := (bulkLoop c keys (st, some [], [])).2.1,
             failedKeys := (bulkLoop c keys (st, some [], [])).2.2,
             transactionID := (bulkLoop c keys (st, some [], [])).1.txID },
       (bulkLoop c keys (st, some [], [])).1) := by
  unfold CreateBulkKeys
  rcases bulkLoop c keys (st, some [], []) with ⟨st1, cr, fk⟩
  rfl

theorem consume_keeps (c : Codec) (hc : c.Lawful) {w : World} {key : String} {d : KeyData}
    (hd : c.unmarshal (get w key) = .ok d) :
    Keeps c w (put key (c.marshal { Consumed := true, TxID := d.TxID, ImageURL := d.ImageURL }) w) := by
  intro k hk
  by_cases hkk : k = key
  · subst hkk
    rw [get_put_same]
    refine ⟨hc.marshal_ne_nil _, fun d1 hd1 => ?_⟩
    rw [hd] at hd1
    cases hd1
    exact ⟨_, hc.1 _, rfl, rfl, fun _ => rfl⟩
  · rw [get_put_other hkk]
    exact ⟨hk, fun d1 hd1 => ⟨d1, hd1, rfl, rfl, fun x => x⟩⟩

/-! ## The invariant of world state -/

/-- C5. Whatever the call `op` (one of the six transactions, any arguments), whatever
world state and whatever store errors occur: every key that holds bytes before the call
holds bytes after it; and if its bytes decoded to a record `d` before, they decode after
to a record with the `txID` and the `imageURL` of `d`, which is consumed if `d` was. -/
theorem world_state_invariant (c : Codec) (hc : c.Lawful) (st : Stub) (op : Op) (k : String)
    (hk : get st.state k ≠ []) :
    get (op.after c st).state k ≠ [] ∧
    ∀ d, c.unmarshal (get st.state k) = .ok d →
      ∃ d2, c.unmarshal (get (op.after c st).state k) = .ok d2 ∧
        d2.TxID = d.TxID ∧ d2.ImageURL = d.ImageURL ∧
        (d.Consumed = true → d2.Consumed = true) := by
  have key : Keeps c st.state (op.after c st).state := by
    cases op with
    | createKey key =>
      show Keeps c st.state (CreateKey c st key).2.state
      rcases CreateKey_state c st key with h | ⟨ha, h⟩
      · rw [h]; exact (Untouched.refl _).keeps c
      · rw [h]; exact (Untouched.put_absent ha _).keeps c
    | createBulkKeys keys =>
      show Keeps c st.state (CreateBulkKeys c st keys).2.state
      rw [CreateBulkKeys_eq]
      exact (bulkLoop_untouched c keys (st, some [], [])).keeps c
    | createKeyWithImage key imageURL =>
      show Keeps c st.state (CreateKeyWithImage c st key imageURL).2.state
      rcases CreateKeyWithImage_state c st key imageURL with h | ⟨ha, h⟩
      · rw [h]; exact (Untouched.refl _).keeps c
      · rw [h]; exact (Untouched.put_absent ha _).keeps c
    | consumeKey key =>
      show Keeps c st.state (ConsumeKey c st key).2.state
      rcases ConsumeKey_state c st key with h | ⟨d, -, hd, -, h⟩
      · rw [h]; exact (Untouched.refl _).keeps c
      · rw [h]; exact consume_keeps c hc hd
    | readKey key =>
      show Keeps c st.state (ReadKey c st key).2.state
      rw [ReadKey_world]; exact (Untouched.refl _).keeps c
    | queryAllKeys =>
      show Keeps c st.state (QueryAllKeys c st).2.state
      rw [QueryAllKeys_world]; exact (Untouched.refl _).keeps c
  exact key k hk

/-- C5 at a concrete input: a consumed record of "k" and a `CreateKey("k")` in a later
transaction. -/
theorem world_state_invariant_witness :
    ∃ d2, demoCodec.unmarshal
        (get ((Op.createKey "k").after demoCodec
          (Stub.start "t2"
            [("k", demoCodec.marshal { Consumed := true, TxID := "t1", ImageURL := "u" })])).state
          "k") = .ok d2 ∧
      d2.TxID = "t1" ∧ d2.ImageURL = "u" ∧ d2.Consumed = true :=
  let h := (world_state_invariant demoCodec demoCodec_lawful
    (Stub.start "t2" [("k", demoCodec.marshal { Consumed := true, TxID := "t1", ImageURL := "u" })])
    (Op.createKey "k") "k" (by decide)).2 { Consumed := true, TxID := "t1", ImageURL := "u" } rfl
  ⟨h.choose, h.choose_spec.1, h.choose_spec.2.1, h.choose_spec.2.2.1, h.choose_spec.2.2.2 rfl⟩

/-! ## Lemmas: the loop of CreateBulkKeys -/

theorem bulkStep_readFailed (c : Codec) {st : Stub} {e : String} (cr : Slice String)
    (fk : List (String × BulkFailure)) (key : String) (h : st.nextFault.1 = some e) :
    bulkStep c (st, cr, fk) key = (st.nextFault.2, cr, put key (.readFailed e) fk) := by
  unfold bulkStep
  simp only
  rw [Stub.GetState_error h]

theorem bulkStep_present (c : Codec) {st : Stub} (cr : Slice String)
    (fk : List (String × BulkFailure)) {key : String} (h : st.nextFault.1 = none)
    (hp : get st.state key ≠ []) :
    bulkStep c (st, cr, fk) key = (st.nextFault.2, cr, put key .alreadyExists fk) := by
  unfold bulkStep
  simp only
  rw [Stub.GetState_ok h]
  simp [hp]

theorem bulkStep_putFailed (c : Codec) {st : Stub} {e : String} (cr : Slice String)
    (fk : List (String × BulkFailure)) {key : String} (h : st.nextFault.1 = none)
    (ha : get st.state key = []) (hw : st.nextFault.2.nextFault.1 = some e) :
    bulkStep c (st, cr, fk) key =
      (st.nextFault.2.nextFault.2, cr, put key (.putFailed e) fk) := by
  unfold bulkStep
  simp only
  rw [Stub.GetState_ok h]
  simp only [ha, List.length_nil, ne_eq, not_true_eq_false, if_false]
  rw [Stub.PutState_error hw]

theorem bulkStep_created (c : Codec) {st : Stub} (cr : Slice String)
    (fk : List (String × BulkFailure)) {key : String} (h : st.nextFault.1 = none)
    (ha : get st.state key = []) (hw : st.nextFault.2.nextFault.1 = none) :
    bulkStep c (st, cr, fk) key =
      ({ st.nextFault.2.nextFault.2 with
         state := put key (c.marshal { Consumed := false, TxID := st.txID, ImageURL := "" })
           st.state },
       some (Slice.elems cr ++ [key]), fk) := by
  unfold bulkStep
  simp only
  rw [Stub.GetState_ok h]
  simp only [ha, List.length_nil, ne_eq, not_true_eq_false, if_false]
  rw [Stub.PutState_ok hw]
  simp [Stub.GetTxID, Slice.append]

theorem bulkLoop_cons (c : Codec) (k : String) (ks : List String)
    (acc : Stub × Slice String × List (String × BulkFailure)) :
    bulkLoop c (k :: ks) acc = bulkLoop c ks (bulkStep c acc k) := rfl

theorem bulkLoop_nil (c : Codec) (acc : Stub × Slice String × List (String × BulkFailure)) :
    bulkLoop c [] acc = acc := rfl

theorem bulkLoop_append (c : Codec) (xs ys : List String)
    (acc : Stub × Slice String × List (String × BulkFailure)) :
    bulkLoop c (xs ++ ys) acc = bulkLoop c ys (bulkLoop c xs acc) := by
  unfold bulkLoop
  exact List.foldl_append _ _ _ _

theorem bulkStep_txID (c : Codec) (acc : Stub × Slice String × List (String × BulkFailure))
    (key : String) : (bulkStep c acc key).1.txID = acc.1.txID := by
  obtain ⟨st, cr, fk⟩ := acc
  rcases Stub.nextFault_cases st with h | ⟨e, h⟩
  · by_cases hp : get st.state key = []
    · rcases Stub.nextFault_cases st.nextFault.2 with hw | ⟨e, hw⟩
      · rw [bulkStep_created c cr fk h hp hw]; simp
      · rw [bulkStep_putFailed c cr fk h hp hw]; simp
    · rw [bulkStep_present c cr fk h hp]; simp
  · rw [bulkStep_readFailed c cr fk key h]; simp

theorem bulkLoop_txID (c : Codec) (keys : List String)
    (acc : Stub × Slice String × List (String × BulkFailure)) :
    (bulkLoop c keys acc).1.txID = acc.1.txID := by
  induction keys generalizing acc with
  | nil => rfl
  | cons k ks ih => rw [bulkLoop_cons, ih, bulkStep_txID]

theorem mem_firstOccurrences (keys : List String) (k : String) :
    k ∈ firstOccurrences keys ↔ k ∈ keys := by
  induction keys with
  | nil => simp [firstOccurrences]
  | cons x xs ih =>
    simp only [firstOccurrences, List.mem_cons, List.mem_filter, ih, decide_eq_true_eq]
    constructor
    · rintro (h | ⟨h, -⟩)
      · exact Or.inl h
      · exact Or.inr h
    · rintro (h | h)
      · exact Or.inl h
      · by_cases hk : k = x
        · exact Or.inl hk
        · exact Or.inr ⟨h, hk⟩

theorem firstOccurrences_nodup (keys : List String) : (firstOccurrences keys).Nodup := by
  induction keys with
  | nil => simp [firstOccurrences]
  | cons x xs ih =>
    simp only [firstOccurrences]
    rw [List.nodup_cons]
    refine ⟨?_, ih.filter _⟩
    simp [List.mem_filter]

/-- Without store errors, the keys created by the loop are the first occurrences of the
keys that had no bytes when the loop started. -/
theorem bulkLoop_created (c : Codec) (hc : c.Lawful) (keys : List String) (st : Stub)
    (cr : List String) (fk : List (String × BulkFailure)) (hst : st.Reliable) :
    (bulkLoop c keys (st, some cr, fk)).2.1 =
      some (cr ++ (firstOccurrences keys).filter (fun x => decide (get st.state x = []))) := by
  induction keys generalizing st cr fk with
  | nil => simp [bulkLoop_nil, firstOccurrences]
  | cons k ks ih =>
    rw [bulkLoop_cons]
    by_cases hp : get st.state k = []
    · rw [bulkStep_created c (some cr) fk hst.fst hp hst.snd.fst]
      have hrel : Stub.Reliable { st.nextFault.2.nextFault.2 with
          state := put k (c.marshal { Consumed := false, TxID := st.txID, ImageURL := "" })
            st.state } := hst.snd.snd
      rw [show Slice.elems (some cr) = cr from rfl, ih _ _ _ hrel]
      simp only [firstOccurrences, List.filter_cons, hp, decide_True, if_true,
        List.filter_filter, List.append_assoc, List.singleton_append]
      congr 3
      apply List.filter_congr
      intro x _
      by_cases hx : x = k
      · subst hx
        simp [get_put_same, hc.marshal_ne_nil]
      · simp [get_put_other hx, hx]
    · rw [bulkStep_present c (some cr) fk hst.fst hp, ih _ _ _ hst.snd]
      simp only [firstOccurrences, List.filter_cons, hp, decide_False, Bool.false_eq_true,
        if_false, List.filter_filter, Stub.nextFault_state]
      congr 2
      apply List.filter_congr
      intro x _
      by_cases hx : x = k
      · subst hx
        simp [hp]
      · simp [hx]

/-- One round of the loop either records a failure of `key`, leaving world state alone,
or writes the new record and appends `key` to the created keys. -/
theorem bulkStep_cases (c : Codec) (st : Stub) (cr : Slice String)
    (fk : List (String × BulkFailure)) (key : String) :
    (∃ r st1, bulkStep c (st, cr, fk) key = (st1, cr, put key r fk) ∧
      st1.state = st.state ∧ st1.txID = st.txID) ∨
    (get st.state key = [] ∧
      ∃ st1, bulkStep c (st, cr, fk) key = (st1, some (Slice.elems cr ++ [key]), fk) ∧
        st1.state =
          put key (c.marshal { Consumed := false, TxID := st.txID, ImageURL := "" }) st.state ∧
        st1.txID = st.txID) := by
  rcases Stub.nextFault_cases st with h | ⟨e, h⟩
  · by_cases hp : get st.state key = []
    · rcases Stub.nextFault_cases st.nextFault.2 with hw | ⟨e, hw⟩
      · exact Or.inr ⟨hp, _, bulkStep_created c cr fk h hp hw, rfl, by simp⟩
      · exact Or.inl ⟨_, _, bulkStep_putFailed c cr fk h hp hw, by simp, by simp⟩
    · exact Or.inl ⟨_, _, bulkStep_present c cr fk h hp, by simp, by simp⟩
  · exact Or.inl ⟨_, _, bulkStep_readFailed c cr fk key h, by simp, by simp⟩

theorem bulkLoop_failed_ascending (c : Codec) (keys : List String) (st : Stub)
    (cr : Slice String) (fk : List (String × BulkFailure)) (h : Ascending fk) :
    Ascending (bulkLoop c keys (st, cr, fk)).2.2 := by
  induction keys generalizing st cr fk with
  | nil => exact h
  | cons k ks ih =>
    rw [bulkLoop_cons]
    rcases bulkStep_cases c st cr fk k with ⟨r, st1, hs, -, -⟩ | ⟨-, st1, hs, -, -⟩
    · rw [hs]; exact ih _ _ _ (ascending_put k r h)
    · rw [hs]; exact ih _ _ _ h

/-- Every created key holds, when the loop ends, the encoding of the unconsumed record of
the transaction. -/
theorem bulkLoop_created_bytes (c : Codec) (hc : c.Lawful) (keys : List String) (st : Stub)
    (cr : Slice String) (fk : List (String × BulkFailure)) (x : String)
    (hx : x ∈ Slice.elems (bulkLoop c keys (st, cr, fk)).2.1) :
    x ∈ Slice.elems cr ∨
    get (bulkLoop c keys (st, cr, fk)).1.state x =
      c.marshal { Consumed := false, TxID := st.txID, ImageURL := "" } := by
  induction keys generalizing st cr fk with
  | nil => exact Or.inl hx
  | cons k ks ih =>
    rw [bulkLoop_cons] at hx ⊢
    rcases bulkStep_cases c st cr fk k with ⟨r, st1, hs, -, ht⟩ | ⟨-, st1, hs, hw, ht⟩
    · rw [hs] at hx ⊢
      rcases ih _ _ _ hx with h | h
      · exact Or.inl h
      · rw [ht] at h; exact Or.inr h
    · rw [hs] at hx ⊢
      rcases ih _ _ _ hx with h | h
      · rcases List.mem_append.mp h with h | h
        · exact Or.inl h
        · have hxk : x = k := by simpa using h
          subst hxk
          right
          have hg : get st1.state x =
              c.marshal { Consumed := false, TxID := st.txID, ImageURL := "" } := by
            rw [hw, get_put_same]
          have hu := bulkLoop_untouched c ks (st1, some (Slice.elems cr ++ [x]), fk) x
            (by rw [hg]; exact hc.marshal_ne_nil _)
          rw [hu, hg]
      · rw [ht] at h; exact Or.inr h

/-- Without store errors the only reason recorded is "already exists". -/
theorem bulkLoop_failed_reasons (c : Codec) (keys : List String) (st : Stub)
    (cr : Slice String) (fk : List (String × BulkFailure)) (hst : st.Reliable)
    (hfk : ∀ e ∈ fk, e.2 = BulkFailure.alreadyExists) :
    ∀ e ∈ (bulkLoop c keys (st, cr, fk)).2.2, e.2 = BulkFailure.alreadyExists := by
  induction keys generalizing st cr fk with
  | nil => exact hfk
  | cons k ks ih =>
    rw [bulkLoop_cons]
    by_cases hp : get st.state k = []
    · rw [bulkStep_created c cr fk hst.fst hp hst.snd.fst]
      exact ih _ _ _ hst.snd.snd hfk
    · rw [bulkStep_present c cr fk hst.fst hp]
      apply ih _ _ _ hst.snd
      intro e he
      rcases mem_put he with he | he
      · rw [he]
      · exact hfk e he

/-- Without store errors a key is recorded as failed exactly when one of its occurrences
found bytes: it had bytes from the start, or it occurs twice. -/
theorem bulkLoop_failed_keys (c : Codec) (hc : c.Lawful) (keys : List String) (st : Stub)
    (cr : Slice String) (fk : List (String × BulkFailure)) (hst : st.Reliable) (x : String) :
    x ∈ (bulkLoop c keys (st, cr, fk)).2.2.map Prod.fst ↔
      x ∈ fk.map Prod.fst ∨ (x ∈ keys ∧ get st.state x ≠ []) ∨ 1 < keys.count x := by
  induction keys generalizing st cr fk with
  | nil => simp [bulkLoop_nil]
  | cons k ks ih =>
    rw [bulkLoop_cons]
    by_cases hp : get st.state k = []
    · have hrel : Stub.Reliable { st.nextFault.2.nextFault.2 with
          state := put k (c.marshal { Consumed := false, TxID := st.txID, ImageURL := "" })
            st.state } := hst.snd.snd
      rw [bulkStep_created c cr fk hst.fst hp hst.snd.fst, ih _ _ _ hrel]
      simp only
      by_cases hx : x = k
      · subst hx
        have h1 : (1 < (x :: ks).count x) ↔ x ∈ ks := by
          rw [List.count_cons_self, ← List.count_pos_iff]
          omega
        have h2 : 1 < ks.count x → x ∈ ks := fun h =>
          List.count_pos_iff.mp (by omega)
        rw [h1, get_put_same]
        simp only [hp, ne_eq, not_true_eq_false, and_false, false_or]
        constructor
        · rintro (h | ⟨h, -⟩ | h)
          · exact Or.inl h
          · exact Or.inr h
          · exact Or.inr (h2 h)
        · rintro (h | h)
          · exact Or.inl h
          · exact Or.inr (Or.inl ⟨h, hc.marshal_ne_nil _⟩)
      · rw [get_put_other hx, List.count_cons_of_ne hx]
        simp [hx]
    · rw [bulkStep_present c cr fk hst.fst hp, ih _ _ _ hst.snd, keys_put]
      simp only [Stub.nextFault_state]
      by_cases hx : x = k
      · subst hx
        simp [hp]
      · rw [List.count_cons_of_ne hx]
        simp [hx]

/-! ## CreateBulkKeys -/

/-- C6. In a transaction without store errors, for a list `keys` none of which holds bytes
in world state: `CreateBulkKeys(keys)` returns `createdKeys` = the distinct keys of the
list in order of first occurrence; `failedKeys` has one entry per key (no key twice), its
keys are exactly the keys occurring more than once in the list, and every reason is
"already exists"; and `ReadKey` of a created key on the resulting world state returns
`consumed = false` with the id of the creating transaction. -/
theorem CreateBulkKeys_fresh (c : Codec) (hc : c.Lawful) (st : Stub) (keys : List String)
    (hst : st.Reliable) (hfresh : ∀ k ∈ keys, get st.state k = []) :
    ∃ r, (CreateBulkKeys c st keys).1 = .ok r ∧
      r.createdKeys = some (firstOccurrences keys) ∧
      (r.failedKeys.map Prod.fst).Nodup ∧
      (∀ k, k ∈ r.failedKeys.map Prod.fst ↔ 1 < keys.count k) ∧
      (∀ e ∈ r.failedKeys, e.2 = BulkFailure.alreadyExists) ∧
      (∀ k ∈ firstOccurrences keys, ∀ rd : Stub, rd.Reliable →
        rd.state = (CreateBulkKeys c st keys).2.state →
        (ReadKey c rd k).1 =
          .ok { key := k, consumed := false, transactionID := st.txID, imageURL := none }) := by
  have hcreated : (bulkLoop c keys (st, some [], [])).2.1 = some (firstOccurrences keys) := by
    rw [bulkLoop_created c hc keys st [] [] hst, List.nil_append]
    congr 1
    rw [List.filter_eq_self]
    intro k hk
    simpa using hfresh k ((mem_firstOccurrences keys k).mp hk)
  rw [CreateBulkKeys_eq]
  refine ⟨_, rfl, hcreated, ?_, ?_, ?_, ?_⟩
  · exact ascending_nodup (bulkLoop_failed_ascending c keys st _ [] List.Pairwise.nil)
  · intro k
    rw [bulkLoop_failed_keys c hc keys st _ [] hst k]
    constructor
    · rintro (h | ⟨h1, h2⟩ | h)
      · simp at h
      · exact absurd (hfresh k h1) h2
      · exact h
    · exact fun h => Or.inr (Or.inr h)
  · exact bulkLoop_failed_reasons c keys st _ [] hst (by simp)
  · intro k hk rd hrd hstate
    have hx : k ∈ Slice.elems (bulkLoop c keys (st, some [], [])).2.1 := by
      rw [hcreated]; exact hk
    rcases bulkLoop_created_bytes c hc keys st (some []) [] k hx with h | h
    · simp [Slice.elems] at h
    · simp only at hstate
      rw [← hstate] at h
      have hd := hc.1 { Consumed := false, TxID := st.txID, ImageURL := "" }
      rw [← h] at hd
      rw [ReadKey_found c hrd.fst (hc.ne_nil_of_decodes hd) hd]
      simp

/-- C6 at the input of the claim: `CreateBulkKeys(["a","b","a"])` on the empty world state
returns `createdKeys = ["a","b"]` and `failedKeys = {"a": already exists}` (the reason
reads "Key already exists"), and `ReadKey("a")` afterwards shows `consumed = false`. -/
theorem CreateBulkKeys_fresh_witness :
    BulkFailure.alreadyExists.message = "Key already exists" ∧
    (CreateBulkKeys demoCodec (Stub.start "t1" []) ["a", "b", "a"]).1 =
      .ok { message := "Bulk key creation completed", createdKeys := some ["a", "b"],
            failedKeys := [("a", BulkFailure.alreadyExists)], transactionID := "t1" } ∧
    (ReadKey demoCodec
        (Stub.start "t2" (CreateBulkKeys demoCodec (Stub.start "t1" []) ["a", "b", "a"]).2.state)
        "a").1 =
      .ok { key := "a", consumed := false, transactionID := "t1", imageURL := none } ∧
    ∃ r, (CreateBulkKeys demoCodec (Stub.start "t1" []) ["a", "b", "a"]).1 = .ok r ∧
      r.createdKeys = some (firstOccurrences ["a", "b", "a"]) ∧
      (∀ k, k ∈ r.failedKeys.map Prod.fst ↔ 1 < ["a", "b", "a"].count k) :=
  ⟨rfl, rfl, rfl,
   let h := CreateBulkKeys_fresh demoCodec demoCodec_lawful (Stub.start "t1" []) ["a", "b", "a"]
     (Stub.start_reliable _ _) (fun _ _ => rfl)
   ⟨h.choose, h.choose_spec.1, h.choose_spec.2.1, h.choose_spec.2.2.2.1⟩⟩

/-- One round of the loop of `CreateBulkKeys` is one call of `CreateKey`: same stub
afterwards; on success the key joins the created keys, on failure it gets a reason. -/
theorem bulkStep_CreateKey (c : Codec) (st : Stub) (cr : Slice String)
    (fk : List (String × BulkFailure)) (key : String) :
    (∃ r, (CreateKey c st key).1 = .ok r ∧
      bulkStep c (st, cr, fk) key =
        ((CreateKey c st key).2, some (Slice.elems cr ++ [key]), fk)) ∨
    (∃ e r, (CreateKey c st key).1 = .error e ∧
      bulkStep c (st, cr, fk) key = ((CreateKey c st key).2, cr, put key r fk)) := by
  rcases Stub.nextFault_cases st with h | ⟨e, h⟩
  · by_cases hp : get st.state key = []
    · rcases Stub.nextFault_cases st.nextFault.2 with hw | ⟨e, hw⟩
      · left
        rw [CreateKey_created c h hp hw, bulkStep_created c cr fk h hp hw]
        exact ⟨_, rfl, rfl⟩
      · right
        rw [CreateKey_putFailed c h hp hw, bulkStep_putFailed c cr fk h hp hw]
        exact ⟨_, _, rfl, rfl⟩
    · right
      rw [CreateKey_present c h hp, bulkStep_present c cr fk h hp]
      exact ⟨_, _, rfl, rfl⟩
  · right
    rw [CreateKey_readFailed c key h, bulkStep_readFailed c cr fk key h]
    exact ⟨_, _, rfl, rfl⟩

theorem sequentialCreate_ok (c : Codec) {st : Stub} {k : String} {r : KeyResponse}
    (ks : List String) (h : (CreateKey c st k).1 = .ok r) :
    sequentialCreate c (k :: ks) st =
      ((sequentialCreate c ks (CreateKey c st k).2).1,
       k :: (sequentialCreate c ks (CreateKey c st k).2).2.1,
       (sequentialCreate c ks (CreateKey c st k).2).2.2) := by
  rw [sequentialCreate]
  rcases hck : CreateKey c st k with ⟨res, st1⟩
  rw [hck] at h
  simp only at h
  subst h
  rfl

theorem sequentialCreate_error (c : Codec) {st : Stub} {k : String} {e : KeyError}
    (ks : List String) (h : (CreateKey c st k).1 = .error e) :
    sequentialCreate c (k :: ks) st =
      ((sequentialCreate c ks (CreateKey c st k).2).1,
       (sequentialCreate c ks (CreateKey c st k).2).2.1,
       k :: (sequentialCreate c ks (CreateKey c st k).2).2.2) := by
  rw [sequentialCreate]
  rcases hck : CreateKey c st k with ⟨res, st1⟩
  rw [hck] at h
  simp only at h
  subst h
  rfl

theorem bulkLoop_sequentialCreate (c : Codec) (keys : List String) (st : Stub)
    (cr : List String) (fk : List (String × BulkFailure)) :
    (bulkLoop c keys (st, some cr, fk)).1 = (sequentialCreate c keys st).1 ∧
    (bulkLoop c keys (st, some cr, fk)).2.1 = some (cr ++ (sequentialCreate c keys st).2.1) ∧
    ∀ x, x ∈ (bulkLoop c keys (st, some cr, fk)).2.2.map Prod.fst ↔
      x ∈ fk.map Prod.fst ∨ x ∈ (sequentialCreate c keys st).2.2 := by
  induction keys generalizing st cr fk with
  | nil => simp [bulkLoop_nil, sequentialCreate]
  | cons k ks ih =>
    rw [bulkLoop_cons]
    rcases bulkStep_CreateKey c st (some cr) fk k with ⟨r, hr, hs⟩ | ⟨e, r, he, hs⟩
    · rw [hs, sequentialCreate_ok c ks hr]
      obtain ⟨h1, h2, h3⟩ := ih (CreateKey c st k).2 (Slice.elems (some cr) ++ [k]) fk
      refine ⟨h1, ?_, h3⟩
      rw [h2]
      simp [Slice.elems]
    · rw [hs, sequentialCreate_error c ks he]
      obtain ⟨h1, h2, h3⟩ := ih (CreateKey c st k).2 cr (put k r fk)
      refine ⟨h1, h2, fun x => ?_⟩
      rw [h3, keys_put]
      simp only [List.mem_cons]
      constructor
      · rintro ((h | h) | h)
        · exact Or.inr (Or.inl h)
        · exact Or.inl h
        · exact Or.inr (Or.inr h)
      · rintro (h | h | h)
        · exact Or.inl (Or.inr h)
        · exact Or.inl (Or.inl h)
        · exact Or.inr h

/-- C7. For every world state, every list `keys` and every pattern of store errors,
`CreateBulkKeys(keys)` returns a response and leaves the stub (world state included) that
applying `CreateKey` to each key in input order in the same transaction leaves;
`createdKeys` is the list of the keys whose `CreateKey` call succeeded, in input order;
and the keys of `failedKeys` are exactly the keys for which some `CreateKey` call failed. -/
theorem CreateBulkKeys_refines_CreateKey (c : Codec) (st : Stub) (keys : List String) :
    ∃ r, (CreateBulkKeys c st keys).1 = .ok r ∧
      (CreateBulkKeys c st keys).2 = (sequentialCreate c keys st).1 ∧
      (CreateBulkKeys c st keys).2.state = (sequentialCreate c keys st).1.state ∧
      r.createdKeys = some (sequentialCreate c keys st).2.1 ∧
      ∀ k, k ∈ r.failedKeys.map Prod.fst ↔ k ∈ (sequentialCreate c keys st).2.2 := by
  obtain ⟨h1, h2, h3⟩ := bulkLoop_sequentialCreate c keys st [] []
  rw [CreateBulkKeys_eq]
  refine ⟨_, rfl, h1, by rw [h1], by simpa using h2, fun k => ?_⟩
  simpa using h3 k

theorem bulkLoop_failed_mono (c : Codec) (keys : List String) (st : Stub) (cr : Slice String)
    (fk : List (String × BulkFailure)) {x : String} (hx : x ∈ fk.map Prod.fst) :
    x ∈ (bulkLoop c keys (st, cr, fk)).2.2.map Prod.fst := by
  induction keys generalizing st cr fk with
  | nil => exact hx
  | cons k ks ih =>
    rw [bulkLoop_cons]
    rcases bulkStep_cases c st cr fk k with ⟨r, st1, hs, -, -⟩ | ⟨-, st1, hs, -, -⟩
    · rw [hs]; exact ih _ _ _ ((keys_put k x r fk).mpr (Or.inr hx))
    · rw [hs]; exact ih _ _ _ hx

theorem bulkLoop_created_mono (c : Codec) (keys : List String) (st : Stub) (cr : Slice String)
    (fk : List (String × BulkFailure)) {x : String} (hx : x ∈ Slice.elems cr) :
    x ∈ Slice.elems (bulkLoop c keys (st, cr, fk)).2.1 := by
  induction keys generalizing st cr fk with
  | nil => exact hx
  | cons k ks ih =>
    rw [bulkLoop_cons]
    rcases bulkStep_cases c st cr fk k with ⟨r, st1, hs, -, -⟩ | ⟨-, st1, hs, -, -⟩
    · rw [hs]; exact ih _ _ _ hx
    · rw [hs]; exact ih _ _ _ (List.mem_append_left _ hx)

/-- C8. `CreateBulkKeys` returns a response, never an error, for every world state, every
list and every pattern of store errors.  Every occurrence of a key in the list is
processed, whatever happened to the keys before it: if, when the loop reaches it, the read
fails, or the key holds bytes, or the write fails, the key is in `failedKeys`; otherwise
it is in `createdKeys`. -/
theorem CreateBulkKeys_never_fails (c : Codec) (st : Stub) (keys : List String) :
    ∃ r, (CreateBulkKeys c st keys).1 = .ok r ∧
      ∀ pre k post, keys = pre ++ k :: post →
        (((bulkReached c st pre).nextFault.1 ≠ none ∨
          get (bulkReached c st pre).state k ≠ [] ∨
          (bulkReached c st pre).nextFault.2.nextFault.1 ≠ none) →
            k ∈ r.failedKeys.map Prod.fst) ∧
        ((bulkReached c st pre).nextFault.1 = none →
          get (bulkReached c st pre).state k = [] →
          (bulkReached c st pre).nextFault.2.nextFault.1 = none →
            k ∈ Slice.elems r.createdKeys) := by
  rw [CreateBulkKeys_eq]
  refine ⟨_, rfl, ?_⟩
  intro pre k post hkeys
  subst hkeys
  simp only
  rw [bulkLoop_append, bulkLoop_cons]
  unfold bulkReached
  rcases hmid : bulkLoop c pre (st, some [], []) with ⟨mid, cr, fk⟩
  simp only
  constructor
  · intro hfail
    have hrec : ∃ r st1, bulkStep c (mid, cr, fk) k = (st1, cr, put k r fk) := by
      rcases Stub.nextFault_cases mid with h | ⟨e, h⟩
      · by_cases hp : get mid.state k = []
        · rcases Stub.nextFault_cases mid.nextFault.2 with hw | ⟨e, hw⟩
          · rcases hfail with hf | hf | hf
            · exact absurd h hf
            · exact absurd hp hf
            · exact absurd hw hf
          · exact ⟨_, _, bulkStep_putFailed c cr fk h hp hw⟩
        · exact ⟨_, _, bulkStep_present c cr fk h hp⟩
      · exact ⟨_, _, bulkStep_readFailed c cr fk k h⟩
    obtain ⟨r, st1, hs⟩ := hrec
    rw [hs]
    exact bulkLoop_failed_mono c post st1 cr _ ((keys_put k k r fk).mpr (Or.inl rfl))
  · intro h hp hw
    rw [bulkStep_created c cr fk h hp hw]
    exact bulkLoop_created_mono c post _ _ fk (by simp [Slice.elems])

/-! ## Lemmas: QueryAllKeys -/

theorem Stub.nextFault_fst_iff (st : Stub) (e : String) :
    st.nextFault.1 = some e ↔ st.faults[0]? = some (some e) := by
  unfold Stub.nextFault
  cases st.faults with
  | nil => simp
  | cons f fs => simp

theorem Stub.nextFault_faults (st : Stub) (i : Nat) :
    st.nextFault.2.faults[i]? = st.faults[i + 1]? := by
  unfold Stub.nextFault
  cases hf : st.faults with
  | nil => simp [hf]
  | cons f fs => simp

theorem queryLoop_nil (c : Codec) (keys : Slice KeyEntry) (st : Stub) :
    queryLoop c [] keys st = (.ok keys, st) := rfl

theorem queryLoop_iterateFailed (c : Codec) {st : Stub} {e : String} (k : String) (v : Bytes)
    (rest : List (String × Bytes)) (keys : Slice KeyEntry) (h : st.nextFault.1 = some e) :
    queryLoop c ((k, v) :: rest) keys st = (.error (.iterateFailed e), st.nextFault.2) := by
  rw [queryLoop]
  rcases hp : st.nextFault with ⟨f, st1⟩
  rw [hp] at h
  simp only at h
  subst h
  rfl

theorem queryLoop_unmarshalFailed (c : Codec) {st : Stub} {e : String} (k : String)
    {v : Bytes} (rest : List (String × Bytes)) (keys : Slice KeyEntry)
    (h : st.nextFault.1 = none) (hd : c.unmarshal v = .error e) :
    queryLoop c ((k, v) :: rest) keys st = (.error (.unmarshalKeyData e), st.nextFault.2) := by
  rw [queryLoop]
  rcases hp : st.nextFault with ⟨f, st1⟩
  rw [hp] at h
  simp only at h
  subst h
  simp only [hd]

theorem queryLoop_next (c : Codec) {st : Stub} {d : KeyData} (k : String)
    {v : Bytes} (rest : List (String × Bytes)) (keys : Slice KeyEntry)
    (h : st.nextFault.1 = none) (hd : c.unmarshal v = .ok d) :
    queryLoop c ((k, v) :: rest) keys st =
      queryLoop c rest (Slice.append keys (KeyEntry.of k d)) st.nextFault.2 := by
  rw [queryLoop]
  rcases hp : st.nextFault with ⟨f, st1⟩
  rw [hp] at h
  simp only at h
  subst h
  simp only [hd]
  rfl

theorem QueryAllKeys_rangeFailed (c : Codec) {st : Stub} {e : String}
    (h : st.nextFault.1 = some e) :
    QueryAllKeys c st = (.error (.rangeFailed e), st.nextFault.2) := by
  unfold QueryAllKeys Stub.GetStateByRange
  rcases hp : st.nextFault with ⟨f, st1⟩
  rw [hp] at h
  simp only at h
  subst h
  rfl

/-- With the iterator open the result is the one of the loop, and the iterator is closed. -/
theorem QueryAllKeys_opened (c : Codec) {st : Stub} (h : st.nextFault.1 = none) :
    (QueryAllKeys c st).1 =
      ((queryLoop c st.state none
          { st.nextFault.2 with opened := st.opened ++ [st.opened.length] }).1.map
        fun keys => { message := "All keys retrieved successfully", keys := keys }) ∧
    (QueryAllKeys c st).2 =
      (queryLoop c st.state none
          { st.nextFault.2 with opened := st.opened ++ [st.opened.length] }).2.Close
        { id := st.opened.length, rest := st.state } := by
  unfold QueryAllKeys Stub.GetStateByRange
  have hs := Stub.nextFault_state st
  have ho := Stub.nextFault_opened st
  rcases hp : st.nextFault with ⟨f, st1⟩
  rw [hp] at h hs ho
  simp only at h hs ho
  subst h
  simp only [hs, ho]
  generalize queryLoop c st.state none _ = q
  rcases q with ⟨r, st2⟩
  cases r <;> exact ⟨rfl, rfl⟩

/-- Without errors of the iterator and with values that all decode, the loop appends one
entry per pair, in order. -/
theorem queryLoop_ok (c : Codec) (l : List (String × Bytes)) (keys : Slice KeyEntry)
    (st : Stub) (hst : st.Reliable) (hdec : ∀ kv ∈ l, ∃ d, c.unmarshal kv.2 = .ok d) :
    ∃ out new, (queryLoop c l keys st).1 = .ok out ∧
      Slice.elems out = Slice.elems keys ++ new ∧ List.Forall₂ (EntryOf c) new l := by
  induction l generalizing keys st with
  | nil => exact ⟨keys, [], rfl, by simp, List.Forall₂.nil⟩
  | cons kv rest ih =>
    obtain ⟨k, v⟩ := kv
    obtain ⟨d, hd⟩ := hdec (k, v) (List.mem_cons_self _ _)
    rw [queryLoop_next c k rest keys hst.fst hd]
    obtain ⟨out, new, h1, h2, h3⟩ := ih (Slice.append keys (KeyEntry.of k d)) st.nextFault.2
      hst.snd (fun kv hkv => hdec kv (List.mem_cons_of_mem _ hkv))
    refine ⟨out, KeyEntry.of k d :: new, h1, ?_, List.Forall₂.cons ⟨d, hd, rfl⟩ h3⟩
    rw [h2]
    simp [Slice.append, Slice.elems]

/-- The loop returns an error exactly when one of its calls of `Next` is due to fail or
one of the values does not decode. -/
theorem queryLoop_error_iff (c : Codec) (l : List (String × Bytes)) (keys : Slice KeyEntry)
    (st : Stub) :
    (∃ e, (queryLoop c l keys st).1 = .error e) ↔
      (∃ i e, i < l.length ∧ st.faults[i]? = some (some e)) ∨
      (∃ kv ∈ l, ∀ d, c.unmarshal kv.2 ≠ .ok d) := by
  induction l generalizing keys st with
  | nil => simp [queryLoop_nil]
  | cons kv rest ih =>
    obtain ⟨k, v⟩ := kv
    rcases Stub.nextFault_cases st with h | ⟨e, h⟩
    · have h0 : ∀ e, st.faults[0]? ≠ some (some e) := by
        intro e he
        rw [← Stub.nextFault_fst_iff, h] at he
        cases he
      cases hd : c.unmarshal v with
      | error e =>
        rw [queryLoop_unmarshalFailed c k rest keys h hd]
        constructor
        · intro _
          exact Or.inr ⟨(k, v), List.mem_cons_self _ _, fun d hdd => by
            rw [hd] at hdd; cases hdd⟩
        · intro _
          exact ⟨_, rfl⟩
      | ok d =>
        rw [queryLoop_next c k rest keys h hd, ih]
        constructor
        · rintro (⟨i, e, hi, he⟩ | ⟨kv, hkv, hu⟩)
          · rw [Stub.nextFault_faults] at he
            exact Or.inl ⟨i + 1, e, by simpa using hi, he⟩
          · exact Or.inr ⟨kv, List.mem_cons_of_mem _ hkv, hu⟩
        · rintro (⟨i, e, hi, he⟩ | ⟨kv, hkv, hu⟩)
          · cases i with
            | zero => exact absurd he (h0 e)
            | succ j =>
              rw [← Stub.nextFault_faults] at he
              exact Or.inl ⟨j, e, by simpa using hi, he⟩
          · rcases List.mem_cons.mp hkv with hkv | hkv
            · subst hkv
              exact absurd hd (hu d)
            · exact Or.inr ⟨kv, hkv, hu⟩
    · rw [queryLoop_iterateFailed c k v rest keys h]
      constructor
      · intro _
        exact Or.inl ⟨0, e, by simp, (Stub.nextFault_fst_iff st e).mp h⟩
      · intro _
        exact ⟨_, rfl⟩

/-! ## QueryAllKeys -/

theorem forall₂_entry_keys (c : Codec) {es : List KeyEntry} {l : List (String × Bytes)}
    (h : List.Forall₂ (EntryOf c) es l) : es.map (fun e => e.key) = l.map Prod.fst := by
  induction h with
  | nil => rfl
  | cons hab _ ih =>
    obtain ⟨d, -, he⟩ := hab
    simp only [List.map_cons, ih, he, KeyEntry.of]

theorem forall₂_entry_mem (c : Codec) {es : List KeyEntry} {l : List (String × Bytes)}
    (h : List.Forall₂ (EntryOf c) es l) {e : KeyEntry} (he : e ∈ es) :
    ∃ kv ∈ l, EntryOf c e kv := by
  induction h with
  | nil => cases he
  | cons hab _ ih =>
    rcases List.mem_cons.mp he with he | he
    · subst he
      exact ⟨_, List.mem_cons_self _ _, hab⟩
    · obtain ⟨kv, hkv, hr⟩ := ih he
      exact ⟨kv, List.mem_cons_of_mem _ hkv, hr⟩

/-- The response of `QueryAllKeys` in a transaction without store errors on a world state
whose values all decode. -/
theorem QueryAllKeys_ok (c : Codec) (st : Stub) (hst : st.Reliable)
    (hdec : ∀ kv ∈ st.state, ∃ d, c.unmarshal kv.2 = .ok d) :
    ∃ r, (QueryAllKeys c st).1 = .ok r ∧
      r.message = "All keys retrieved successfully" ∧
      List.Forall₂ (EntryOf c) (Slice.elems r.keys) st.state := by
  have hrel : Stub.Reliable { st.nextFault.2 with opened := st.opened ++ [st.opened.length] } :=
    hst.snd
  obtain ⟨out, new, h1, h2, h3⟩ := queryLoop_ok c st.state none _ hrel hdec
  refine ⟨{ message := "All keys retrieved successfully", keys := out }, ?_, rfl, ?_⟩
  · rw [(QueryAllKeys_opened c hst.fst).1, h1]
    rfl
  · have : Slice.elems out = new := by simpa [Slice.elems] using h2
    simp only [this]
    exact h3

theorem createKey_start_state (c : Codec) (t : String) (w : World) (k : String) :
    (get w k ≠ [] ∧ (CreateKey c (Stub.start t w) k).2.state = w) ∨
    (get w k = [] ∧ (CreateKey c (Stub.start t w) k).2.state =
      put k (c.marshal { Consumed := false, TxID := t, ImageURL := "" }) w) := by
  by_cases hp : get w k = []
  · right
    refine ⟨hp, ?_⟩
    rw [CreateKey_created c (show (Stub.start t w).nextFault.1 = none from rfl) hp rfl]
    rfl
  · left
    refine ⟨hp, ?_⟩
    rw [CreateKey_present c (show (Stub.start t w).nextFault.1 = none from rfl) hp]
    rfl

theorem createAll_ascending (c : Codec) (ks : List (String × String)) (w : World)
    (h : Ascending w) : Ascending (createAll c w ks) := by
  induction ks generalizing w with
  | nil => exact h
  | cons kt rest ih =>
    obtain ⟨k, t⟩ := kt
    rw [createAll]
    rcases createKey_start_state c t w k with ⟨-, hs⟩ | ⟨-, hs⟩
    · rw [hs]; exact ih w h
    · rw [hs]; exact ih _ (ascending_put k _ h)

theorem createAll_decodes (c : Codec) (hc : c.Lawful) (ks : List (String × String)) (w : World)
    (h : ∀ kv ∈ w, ∃ d, c.unmarshal kv.2 = .ok d) :
    ∀ kv ∈ createAll c w ks, ∃ d, c.unmarshal kv.2 = .ok d := by
  induction ks generalizing w with
  | nil => exact h
  | cons kt rest ih =>
    obtain ⟨k, t⟩ := kt
    rw [createAll]
    rcases createKey_start_state c t w k with ⟨-, hs⟩ | ⟨-, hs⟩
    · rw [hs]; exact ih w h
    · rw [hs]
      apply ih
      intro kv hkv
      rcases mem_put hkv with hkv | hkv
      · rw [hkv]
        exact ⟨_, hc.1 _⟩
      · exact h kv hkv

theorem createAll_keys (c : Codec) (ks : List (String × String)) (w : World) (x : String) :
    x ∈ (createAll c w ks).map Prod.fst ↔ x ∈ w.map Prod.fst ∨ x ∈ ks.map Prod.fst := by
  induction ks generalizing w with
  | nil => simp [createAll]
  | cons kt rest ih =>
    obtain ⟨k, t⟩ := kt
    rw [createAll, ih]
    rcases createKey_start_state c t w k with ⟨hp, hs⟩ | ⟨-, hs⟩
    · rw [hs]
      have hk := mem_keys_of_get_ne hp
      simp only [List.map_cons, List.mem_cons]
      constructor
      · rintro (h | h)
        · exact Or.inl h
        · exact Or.inr (Or.inr h)
      · rintro (h | h | h)
        · exact Or.inl h
        · exact Or.inl (h ▸ hk)
        · exact Or.inr h
    · rw [hs, keys_put]
      simp only [List.map_cons, List.mem_cons]
      constructor
      · rintro ((h | h) | h)
        · exact Or.inr (Or.inl h)
        · exact Or.inl h
        · exact Or.inr (Or.inr h)
      · rintro (h | h | h)
        · exact Or.inl (Or.inr h)
        · exact Or.inl (Or.inl h)
        · exact Or.inr h

/-- Two strictly ascending lists of keys with the same members are the same list. -/
theorem ascending_keys_ext {l1 l2 : List String}
    (h1 : l1.Pairwise (fun a b => keyLt a b = true))
    (h2 : l2.Pairwise (fun a b => keyLt a b = true))
    (hmem : ∀ x, x ∈ l1 ↔ x ∈ l2) : l1 = l2 := by
  haveI : IsAntisymm String (fun a b => keyLt a b = true) :=
    ⟨fun a b hab hba => by
      have := keyLt_trans hab hba
      rw [keyLt_irrefl] at this
      cases this⟩
  have n1 : l1.Nodup := h1.imp (fun hab => keyLt_ne hab)
  have n2 : l2.Nodup := h2.imp (fun hab => keyLt_ne hab)
  exact List.eq_of_perm_of_sorted ((List.perm_ext_iff_of_nodup n1 n2).mpr hmem) h1 h2

theorem ascending_map_fst {β : Type} {w : List (String × β)} (h : Ascending w) :
    (w.map Prod.fst).Pairwise (fun a b => keyLt a b = true) := by
  unfold Ascending at h
  rw [List.pairwise_map]
  exact h

/-- C9. In a transaction without store errors, on a world state (keys in ascending order)
whose values all decode, `QueryAllKeys` succeeds and `keys` has one entry per entry of
world state, in the same order: the entry of key `k` is
`{key = k, transactionID = txID of the record of k, consumed = its consumed flag}`, and the
keys of the response are strictly increasing.  The order does not depend on the order of
creation: two sequences of `CreateKey` transactions that create the same keys from the
empty world state, in any two orders, give responses with the same list of keys. -/
theorem QueryAllKeys_lists_all (c : Codec) (st : Stub) (hst : st.Reliable)
    (hasc : Ascending st.state) (hdec : ∀ kv ∈ st.state, ∃ d, c.unmarshal kv.2 = .ok d) :
    ∃ r, (QueryAllKeys c st).1 = .ok r ∧
      List.Forall₂ (EntryOf c) (Slice.elems r.keys) st.state ∧
      (Slice.elems r.keys).Pairwise (fun a b => keyLt a.key b.key = true) ∧
      (∀ e ∈ Slice.elems r.keys,
        ∃ d, c.unmarshal (get st.state e.key) = .ok d ∧ e = KeyEntry.of e.key d) ∧
      (c.Lawful → ∀ (ks1 ks2 : List (String × String)) (t1 t2 : String),
        (ks1.map Prod.fst).Perm (ks2.map Prod.fst) →
        ∃ r1 r2,
          (QueryAllKeys c (Stub.start t1 (createAll c [] ks1))).1 = .ok r1 ∧
          (QueryAllKeys c (Stub.start t2 (createAll c [] ks2))).1 = .ok r2 ∧
          (Slice.elems r1.keys).map (fun e => e.key) =
            (Slice.elems r2.keys).map (fun e => e.key)) := by
  obtain ⟨r, hr, -, hall⟩ := QueryAllKeys_ok c st hst hdec
  have hkeys := forall₂_entry_keys c hall
  refine ⟨r, hr, hall, ?_, ?_, ?_⟩
  · have h := ascending_map_fst hasc
    rw [← hkeys, List.pairwise_map] at h
    exact h
  · intro e he
    obtain ⟨kv, hkv, d, hd, hed⟩ := forall₂_entry_mem c hall he
    have hk : e.key = kv.1 := by rw [hed]; rfl
    refine ⟨d, ?_, ?_⟩
    · rw [hk, get_of_mem hasc hkv]; exact hd
    · rw [hk]; exact hed
  · intro hc ks1 ks2 t1 t2 hperm
    obtain ⟨r1, hr1, -, hall1⟩ := QueryAllKeys_ok c (Stub.start t1 (createAll c [] ks1))
      (Stub.start_reliable _ _) (createAll_decodes c hc ks1 [] (by simp))
    obtain ⟨r2, hr2, -, hall2⟩ := QueryAllKeys_ok c (Stub.start t2 (createAll c [] ks2))
      (Stub.start_reliable _ _) (createAll_decodes c hc ks2 [] (by simp))
    refine ⟨r1, r2, hr1, hr2, ?_⟩
    rw [forall₂_entry_keys c hall1, forall₂_entry_keys c hall2]
    apply ascending_keys_ext
    · exact ascending_map_fst (createAll_ascending c ks1 [] List.Pairwise.nil)
    · exact ascending_map_fst (createAll_ascending c ks2 [] List.Pairwise.nil)
    · intro x
      show x ∈ (createAll c [] ks1).map Prod.fst ↔ x ∈ (createAll c [] ks2).map Prod.fst
      rw [createAll_keys, createAll_keys]
      simp only [List.map_nil, List.not_mem_nil, false_or]
      exact hperm.mem_iff

/-- C9 at the input of the claim: after `CreateKey("x")`, `CreateKey("z")`, `CreateKey("y")`
in the transactions "t1", "t2", "t3", the entries of `QueryAllKeys` come in the order
x, y, z. -/
theorem QueryAllKeys_lists_all_witness :
    (QueryAllKeys demoCodec
        (Stub.start "t4" (createAll demoCodec [] [("x", "t1"), ("z", "t2"), ("y", "t3")]))).1 =
      .ok { message := "All keys retrieved successfully",
            keys := some [{ key := "x", transactionID := "t1", consumed := false },
                          { key := "y", transactionID := "t3", consumed := false },
                          { key := "z", transactionID := "t2", consumed := false }] } ∧
    ∃ r, (QueryAllKeys demoCodec
        (Stub.start "t4" (createAll demoCodec [] [("x", "t1"), ("z", "t2"), ("y", "t3")]))).1 =
          .ok r ∧
      (Slice.elems r.keys).Pairwise (fun a b => keyLt a.key b.key = true) :=
  ⟨rfl,
   let h := QueryAllKeys_lists_all demoCodec
     (Stub.start "t4" (createAll demoCodec [] [("x", "t1"), ("z", "t2"), ("y", "t3")]))
     (Stub.start_reliable _ _)
     (createAll_ascending demoCodec _ [] List.Pairwise.nil)
     (createAll_decodes demoCodec demoCodec_lawful _ [] (fun _ h => absurd h (List.not_mem_nil _)))
   ⟨h.choose, h.choose_spec.1, h.choose_spec.2.2.1⟩⟩

/-- C10. `QueryAllKeys` returns an error (and so no list of keys) exactly when a store call
of the scan is due to fail (the opening of the iterator, call 0, or one of the calls of
`Next`, calls 1 to the number of entries) or some value of world state does not decode,
whatever the other entries are.  Hence, in a transaction without store errors, it succeeds
if and only if every value of world state decodes. -/
theorem QueryAllKeys_fail_fast (c : Codec) (st : Stub) :
    ((∃ e, (QueryAllKeys c st).1 = .error e) ↔
      (∃ i e, i ≤ st.state.length ∧ st.faults[i]? = some (some e)) ∨
      (∃ kv ∈ st.state, ∀ d, c.unmarshal kv.2 ≠ .ok d)) ∧
    (st.Reliable →
      ((∃ r, (QueryAllKeys c st).1 = .ok r) ↔
        ∀ kv ∈ st.state, ∃ d, c.unmarshal kv.2 = .ok d)) := by
  have main : (∃ e, (QueryAllKeys c st).1 = .error e) ↔
      (∃ i e, i ≤ st.state.length ∧ st.faults[i]? = some (some e)) ∨
      (∃ kv ∈ st.state, ∀ d, c.unmarshal kv.2 ≠ .ok d) := by
    rcases Stub.nextFault_cases st with h | ⟨e, h⟩
    · have h0 : ∀ e, st.faults[0]? ≠ some (some e) := by
        intro e he
        rw [← Stub.nextFault_fst_iff, h] at he
        cases he
      have hmap : (∃ e, (QueryAllKeys c st).1 = .error e) ↔
          ∃ e, (queryLoop c st.state none
            { st.nextFault.2 with opened := st.opened ++ [st.opened.length] }).1 = .error e := by
        rw [(QueryAllKeys_opened c h).1]
        cases (queryLoop c st.state none
          { st.nextFault.2 with opened := st.opened ++ [st.opened.length] }).1 with
        | error e => simp [Except.map]
        | ok keys => simp [Except.map]
      rw [hmap, queryLoop_error_iff]
      show (∃ i e, i < st.state.length ∧ st.nextFault.2.faults[i]? = some (some e)) ∨ _ ↔ _
      constructor
      · rintro (⟨i, e, hi, he⟩ | hu)
        · rw [Stub.nextFault_faults] at he
          exact Or.inl ⟨i + 1, e, hi, he⟩
        · exact Or.inr hu
      · rintro (⟨i, e, hi, he⟩ | hu)
        · cases i with
          | zero => exact absurd he (h0 e)
          | succ j =>
            rw [← Stub.nextFault_faults] at he
            exact Or.inl ⟨j, e, hi, he⟩
        · exact Or.inr hu
    · rw [QueryAllKeys_rangeFailed c h]
      constructor
      · intro _
        exact Or.inl ⟨0, e, Nat.zero_le _, (Stub.nextFault_fst_iff st e).mp h⟩
      · intro _
        exact ⟨_, rfl⟩
  refine ⟨main, fun hst => ⟨?_, ?_⟩⟩
  · rintro ⟨r, hr⟩ kv hkv
    cases hd : c.unmarshal kv.2 with
    | ok d => exact ⟨d, rfl⟩
    | error err =>
      have herr : ∃ e, (QueryAllKeys c st).1 = .error e :=
        main.mpr (Or.inr ⟨kv, hkv, fun d hdd => by rw [hd] at hdd; cases hdd⟩)
      obtain ⟨e, he⟩ := herr
      rw [hr] at he
      cases he
  · intro hdec
    obtain ⟨r, hr, -, -⟩ := QueryAllKeys_ok c st hst hdec
    exact ⟨r, hr⟩

/-! ## Lemmas: CreateKeyWithImage, case by case -/

theorem CreateKeyWithImage_readFailed (c : Codec) {st : Stub} {e : String} (key imageURL : String)
    (h : st.nextFault.1 = some e) :
    CreateKeyWithImage c st key imageURL = (.error (.readFailed e), st.nextFault.2) := by
  unfold CreateKeyWithImage
  rw [Stub.GetState_error h]

theorem CreateKeyWithImage_present (c : Codec) {st : Stub} {key : String} (imageURL : String)
    (h : st.nextFault.1 = none) (hp : get st.state key ≠ []) :
    CreateKeyWithImage c st key imageURL = (.error (.alreadyExists key), st.nextFault.2) := by
  unfold CreateKeyWithImage
  rw [Stub.GetState_ok h]
  simp [hp]

theorem CreateKeyWithImage_putFailed (c : Codec) {st : Stub} {key e : String}
    (imageURL : String) (h : st.nextFault.1 = none) (ha : get st.state key = [])
    (hw : st.nextFault.2.nextFault.1 = some e) :
    CreateKeyWithImage c st key imageURL =
      (.error (.putFailed key e), st.nextFault.2.nextFault.2) := by
  unfold CreateKeyWithImage
  rw [Stub.GetState_ok h]
  simp only [ha, List.length_nil, ne_eq, not_true_eq_false, if_false]
  rw [Stub.PutState_error hw]

theorem CreateKeyWithImage_created (c : Codec) {st : Stub} {key : String} (imageURL : String)
    (h : st.nextFault.1 = none) (ha : get st.state key = [])
    (hw : st.nextFault.2.nextFault.1 = none) :
    CreateKeyWithImage c st key imageURL =
      (.ok { message := "Key with image created successfully", key := key,
             transactionID := st.txID, imageURL := imageURL },
       { st.nextFault.2.nextFault.2 with
         state := put key (c.marshal { Consumed := false, TxID := st.txID, ImageURL := imageURL })
           st.state }) := by
  unfold CreateKeyWithImage
  rw [Stub.GetState_ok h]
  simp only [ha, List.length_nil, ne_eq, not_true_eq_false, if_false]
  rw [Stub.PutState_ok hw]
  simp [Stub.GetTxID]

/-! ## ReadKey and the image URL -/

/-- C11. `ReadKey(key)`, when its read succeeds and the bytes under `key` decode to a record
`d`, returns `key`, `d.Consumed` and `d.TxID`; its response has the field `imageURL` if
and only if `d.ImageURL` is not empty, and then the field is `d.ImageURL`.  Hence, without
store errors and for a key without bytes: after `CreateKeyWithImage(p, r)` with `r` not
empty, `ReadKey(p)` has `imageURL = r`; after `CreateKey(q)`, `ReadKey(q)` has no field
`imageURL`. -/
theorem ReadKey_imageURL (c : Codec) (hc : c.Lawful) :
    (∀ (rd : Stub) (key : String) (d : KeyData), rd.nextFault.1 = none →
      c.unmarshal (get rd.state key) = .ok d →
      ∃ r, (ReadKey c rd key).1 = .ok r ∧ r.key = key ∧ r.consumed = d.Consumed ∧
        r.transactionID = d.TxID ∧
        (r.imageURL ≠ none ↔ d.ImageURL ≠ "") ∧
        (d.ImageURL ≠ "" → r.imageURL = some d.ImageURL)) ∧
    (∀ (st rd : Stub) (p r : String), st.Reliable → rd.Reliable → get st.state p = [] →
      r ≠ "" → rd.state = (CreateKeyWithImage c st p r).2.state →
      (ReadKey c rd p).1 =
        .ok { key := p, consumed := false, transactionID := st.txID, imageURL := some r }) ∧
    (∀ (st rd : Stub) (q : String), st.Reliable → rd.Reliable → get st.state q = [] →
      rd.state = (CreateKey c st q).2.state →
      (ReadKey c rd q).1 =
        .ok { key := q, consumed := false, transactionID := st.txID, imageURL := none }) := by
  refine ⟨?_, ?_, ?_⟩
  · intro rd key d hread hd
    rw [ReadKey_found c hread (hc.ne_nil_of_decodes hd) hd]
    refine ⟨_, rfl, rfl, rfl, rfl, ?_, ?_⟩
    · by_cases h : d.ImageURL = "" <;> simp [h]
    · intro h
      simp [h]
  · intro st rd p r hst hrd habs hr hstate
    rw [CreateKeyWithImage_created c r hst.fst habs hst.snd.fst] at hstate
    simp only at hstate
    have hget : get rd.state p =
        c.marshal { Consumed := false, TxID := st.txID, ImageURL := r } := by
      rw [hstate, get_put_same]
    have hd := hc.1 { Consumed := false, TxID := st.txID, ImageURL := r }
    rw [← hget] at hd
    rw [ReadKey_found c hrd.fst (hc.ne_nil_of_decodes hd) hd]
    simp [hr]
  · intro st rd q hst hrd habs hstate
    rw [CreateKey_created c hst.fst habs hst.snd.fst] at hstate
    simp only at hstate
    have hget : get rd.state q =
        c.marshal { Consumed := false, TxID := st.txID, ImageURL := "" } := by
      rw [hstate, get_put_same]
    have hd := hc.1 { Consumed := false, TxID := st.txID, ImageURL := "" }
    rw [← hget] at hd
    rw [ReadKey_found c hrd.fst (hc.ne_nil_of_decodes hd) hd]
    simp

/-- C11 at the input of the claim: `CreateKeyWithImage("p", "img://1")` then `ReadKey("p")`,
and `CreateKey("q")` then `ReadKey("q")`. -/
theorem ReadKey_imageURL_witness :
    (ReadKey demoCodec
        (Stub.start "t2" (CreateKeyWithImage demoCodec (Stub.start "t1" []) "p" "img://1").2.state)
        "p").1 =
      .ok { key := "p", consumed := false, transactionID := "t1", imageURL := some "img://1" } ∧
    (ReadKey demoCodec (Stub.start "t2" (CreateKey demoCodec (Stub.start "t1" []) "q").2.state)
        "q").1 =
      .ok { key := "q", consumed := false, transactionID := "t1", imageURL := none } :=
  ⟨(ReadKey_imageURL demoCodec demoCodec_lawful).2.1 (Stub.start "t1" []) _ "p" "img://1"
      (Stub.start_reliable _ _) (Stub.start_reliable _ _) rfl (by decide) rfl,
   (ReadKey_imageURL demoCodec demoCodec_lawful).2.2 (Stub.start "t1" []) _ "q"
      (Stub.start_reliable _ _) (Stub.start_reliable _ _) rfl rfl⟩

/-! ## CreateKey twice -/

/-- C12. `k` has no bytes. After `CreateKey(k)` in a transaction `st1` without store
errors, `CreateKey(k)` in any transaction `st2` on the resulting world state whose read
succeeds fails with "already exists"; world state is unchanged by the second call, and
the record under `k` is the one the first call wrote: `txID = st1.txID`, `consumed = false`. -/
theorem CreateKey_twice (c : Codec) (hc : c.Lawful) (st1 st2 : Stub) (k : String)
    (habs : get st1.state k = []) (hst1 : st1.Reliable)
    (hstate : st2.state = (CreateKey c st1 k).2.state) (hread : st2.nextFault.1 = none) :
    (CreateKey c st1 k).1 =
      .ok { message := "Key created successfully", key := k, transactionID := st1.txID } ∧
    (CreateKey c st2 k).1 = .error (.alreadyExists k) ∧
    (CreateKey c st2 k).2.state = st2.state ∧
    c.unmarshal (get (CreateKey c st2 k).2.state k) =
      .ok { Consumed := false, TxID := st1.txID, ImageURL := "" } := by
  have hcr := CreateKey_created c hst1.fst habs hst1.snd.fst
  have hget : get st2.state k =
      c.marshal { Consumed := false, TxID := st1.txID, ImageURL := "" } := by
    rw [hstate, hcr]
    exact get_put_same _ _ _
  have hp : get st2.state k ≠ [] := by
    rw [hget]
    exact hc.marshal_ne_nil _
  have h2 := CreateKey_present c hread hp
  refine ⟨by rw [hcr], by rw [h2], ?_, ?_⟩
  · rw [h2]
    exact Stub.nextFault_state st2
  · rw [h2]
    simp only [Stub.nextFault_state]
    rw [hget]
    exact hc.1 _

/-- C12 at a concrete input: "k" is created in "t1" on the empty world state and created
again in "t2". -/
theorem CreateKey_twice_witness :
    (CreateKey demoCodec (Stub.start "t2" (CreateKey demoCodec (Stub.start "t1" []) "k").2.state)
        "k").1 = .error (.alreadyExists "k") ∧
    demoCodec.unmarshal
        (get (CreateKey demoCodec
          (Stub.start "t2" (CreateKey demoCodec (Stub.start "t1" []) "k").2.state) "k").2.state
          "k") =
      .ok { Consumed := false, TxID := "t1", ImageURL := "" } :=
  let h := CreateKey_twice demoCodec demoCodec_lawful (Stub.start "t1" [])
    (Stub.start "t2" (CreateKey demoCodec (Stub.start "t1" []) "k").2.state) "k"
    rfl (Stub.start_reliable _ _) rfl rfl
  ⟨h.2.1, h.2.2.2⟩

/-! ## The single-key transactions: errors, writes -/

/-- The outcome of `CreateKey`: an error with world state as it was, or success with the
stub that one `GetState(key)` and one successful `PutState(key, value)` leave. -/
theorem CreateKey_outcome (c : Codec) (st : Stub) (key : String) :
    (∃ e, (CreateKey c st key).1 = .error e ∧ (CreateKey c st key).2.state = st.state) ∨
    (get st.state key = [] ∧
      (CreateKey c st key).1 =
        .ok { message := "Key created successfully", key := key, transactionID := st.txID } ∧
      ((st.GetState key).2.PutState key
        (c.marshal { Consumed := false, TxID := st.txID, ImageURL := "" })).1 = none ∧
      (CreateKey c st key).2 =
        ((st.GetState key).2.PutState key
          (c.marshal { Consumed := false, TxID := st.txID, ImageURL := "" })).2 ∧
      (CreateKey c st key).2.state =
        put key (c.marshal { Consumed := false, TxID := st.txID, ImageURL := "" }) st.state) := by
  rcases Stub.nextFault_cases st with h | ⟨e, h⟩
  · by_cases hp : get st.state key = []
    · rcases Stub.nextFault_cases st.nextFault.2 with hw | ⟨e, hw⟩
      · right
        rw [CreateKey_created c h hp hw, Stub.GetState_ok h, Stub.PutState_ok hw]
        simp [hp]
      · left
        rw [CreateKey_putFailed c h hp hw]
        exact ⟨_, rfl, by simp⟩
    · left
      rw [CreateKey_present c h hp]
      exact ⟨_, rfl, by simp⟩
  · left
    rw [CreateKey_readFailed c key h]
    exact ⟨_, rfl, by simp⟩

theorem CreateKeyWithImage_outcome (c : Codec) (st : Stub) (key imageURL : String) :
    (∃ e, (CreateKeyWithImage c st key imageURL).1 = .error e ∧
      (CreateKeyWithImage c st key imageURL).2.state = st.state) ∨
    (get st.state key = [] ∧
      (CreateKeyWithImage c st key imageURL).1 =
        .ok { message := "Key with image created successfully", key := key,
              transactionID := st.txID, imageURL := imageURL } ∧
      ((st.GetState key).2.PutState key
        (c.marshal { Consumed := false, TxID := st.txID, ImageURL := imageURL })).1 = none ∧
      (CreateKeyWithImage c st key imageURL).2 =
        ((st.GetState key).2.PutState key
          (c.marshal { Consumed := false, TxID := st.txID, ImageURL := imageURL })).2 ∧
      (CreateKeyWithImage c st key imageURL).2.state =
        put key (c.marshal { Consumed := false, TxID := st.txID, ImageURL := imageURL })
          st.state) := by
  rcases Stub.nextFault_cases st with h | ⟨e, h⟩
  · by_cases hp : get st.state key = []
    · rcases Stub.nextFault_cases st.nextFault.2 with hw | ⟨e, hw⟩
      · right
        rw [CreateKeyWithImage_created c imageURL h hp hw, Stub.GetState_ok h,
          Stub.PutState_ok hw]
        simp [hp]
      · left
        rw [CreateKeyWithImage_putFailed c imageURL h hp hw]
        exact ⟨_, rfl, by simp⟩
    · left
      rw [CreateKeyWithImage_present c imageURL h hp]
      exact ⟨_, rfl, by simp⟩
  · left
    rw [CreateKeyWithImage_readFailed c key imageURL h]
    exact ⟨_, rfl, by simp⟩

theorem ConsumeKey_outcome (c : Codec) (st : Stub) (key : String) :
    (∃ e, (ConsumeKey c st key).1 = .error e ∧ (ConsumeKey c st key).2.state = st.state) ∨
    (∃ d, c.unmarshal (get st.state key) = .ok d ∧ d.Consumed = false ∧
      (ConsumeKey c st key).1 =
        .ok { message := "Key consumed successfully", key := key, transactionID := st.txID } ∧
      ((st.GetState key).2.PutState key
        (c.marshal { Consumed := true, TxID := d.TxID, ImageURL := d.ImageURL })).1 = none ∧
      (ConsumeKey c st key).2 =
        ((st.GetState key).2.PutState key
          (c.marshal { Consumed := true, TxID := d.TxID, ImageURL := d.ImageURL })).2 ∧
      (ConsumeKey c st key).2.state =
        put key (c.marshal { Consumed := true, TxID := d.TxID, ImageURL := d.ImageURL })
          st.state) := by
  rcases Stub.nextFault_cases st with h | ⟨e, h⟩
  · by_cases hp : get st.state key = []
    · left
      rw [ConsumeKey_notFound c h hp]
      exact ⟨_, rfl, by simp⟩
    · cases hd : c.unmarshal (get st.state key) with
      | error e =>
        left
        rw [ConsumeKey_unmarshalFailed c h hp hd]
        exact ⟨_, rfl, by simp⟩
      | ok d =>
        cases hcons : d.Consumed with
        | true =>
          left
          rw [ConsumeKey_alreadyConsumed c h hp hd hcons]
          exact ⟨_, rfl, by simp⟩
        | false =>
          rcases Stub.nextFault_cases st.nextFault.2 with hw | ⟨e, hw⟩
          · right
            refine ⟨d, rfl, hcons, ?_⟩
            rw [ConsumeKey_consumed c h hp hd hcons hw, Stub.GetState_ok h,
              Stub.PutState_ok hw]
            simp
          · left
            rw [ConsumeKey_updateFailed c h hp hd hcons hw]
            exact ⟨_, rfl, by simp⟩
  · left
    rw [ConsumeKey_getStateFailed c key h]
    exact ⟨_, rfl, by simp⟩

/-- C13. Whenever `CreateKey`, `CreateKeyWithImage`, `ConsumeKey` or `ReadKey` returns an
error, whatever the error, world state after the call is world state before it.  Whenever
`CreateKey`, `CreateKeyWithImage` or `ConsumeKey` succeeds, the stub after the call is the
one left by the call `GetState(key)` followed by one call `PutState(key, value)` that
succeeds: one write, under the key given, and world state is the old one with `value`
under `key`. -/
theorem single_key_atomicity (c : Codec) (st : Stub) (key imageURL : String) :
    (∀ e, (CreateKey c st key).1 = .error e → (CreateKey c st key).2.state = st.state) ∧
    (∀ e, (CreateKeyWithImage c st key imageURL).1 = .error e →
      (CreateKeyWithImage c st key imageURL).2.state = st.state) ∧
    (∀ e, (ConsumeKey c st key).1 = .error e → (ConsumeKey c st key).2.state = st.state) ∧
    (∀ e, (ReadKey c st key).1 = .error e → (ReadKey c st key).2.state = st.state) ∧
    (∀ r, (CreateKey c st key).1 = .ok r →
      ∃ value, ((st.GetState key).2.PutState key value).1 = none ∧
        (CreateKey c st key).2 = ((st.GetState key).2.PutState key value).2 ∧
        (CreateKey c st key).2.state = put key value st.state) ∧
    (∀ r, (CreateKeyWithImage c st key imageURL).1 = .ok r →
      ∃ value, ((st.GetState key).2.PutState key value).1 = none ∧
        (CreateKeyWithImage c st key imageURL).2 = ((st.GetState key).2.PutState key value).2 ∧
        (CreateKeyWithImage c st key imageURL).2.state = put key value st.state) ∧
    (∀ r, (ConsumeKey c st key).1 = .ok r →
      ∃ value, ((st.GetState key).2.PutState key value).1 = none ∧
        (ConsumeKey c st key).2 = ((st.GetState key).2.PutState key value).2 ∧
        (ConsumeKey c st key).2.state = put key value st.state) := by
  refine ⟨?_, ?_, ?_, ?_, ?_, ?_, ?_⟩
  · intro e he
    rcases CreateKey_outcome c st key with ⟨_, _, hs⟩ | ⟨_, hok, _⟩
    · exact hs
    · rw [hok] at he; cases he
  · intro e he
    rcases CreateKeyWithImage_outcome c st key imageURL with ⟨_, _, hs⟩ | ⟨_, hok, _⟩
    · exact hs
    · rw [hok] at he; cases he
  · intro e he
    rcases ConsumeKey_outcome c st key with ⟨_, _, hs⟩ | ⟨_, _, _, hok, _⟩
    · exact hs
    · rw [hok] at he; cases he
  · intro e _
    exact ReadKey_world c st key
  · intro r hr
    rcases CreateKey_outcome c st key with ⟨e, he, _⟩ | ⟨_, _, hw, hstub, hs⟩
    · rw [he] at hr; cases hr
    · exact ⟨_, hw, hstub, hs⟩
  · intro r hr
    rcases CreateKeyWithImage_outcome c st key imageURL with ⟨e, he, _⟩ | ⟨_, _, hw, hstub, hs⟩
    · rw [he] at hr; cases hr
    · exact ⟨_, hw, hstub, hs⟩
  · intro r hr
    rcases ConsumeKey_outcome c st key with ⟨e, he, _⟩ | ⟨_, _, _, _, hw, hstub, hs⟩
    · rw [he] at hr; cases hr
    · exact ⟨_, hw, hstub, hs⟩

/-! ## CreateKeyWithImage against CreateKey -/

/-- C14. On every stub (world state, transaction, pattern of store errors) and for every
`key` and `ref`: `CreateKeyWithImage(key, ref)` returns an error exactly when
`CreateKey(key)` does, and the same error.  When it succeeds, so does `CreateKey(key)`, and
its response carries the key and the transaction id of the response of `CreateKey` and
`imageURL = ref`; world state afterwards is the old one with the encoding of
`{consumed = false, txID, imageURL = ref}` under `key`, where `CreateKey` writes the
encoding of `{consumed = false, txID, imageURL = ""}`, so the two world states agree on
every other key; and with a lawful codec the record under `key` decodes to `imageURL = ref`. -/
theorem CreateKeyWithImage_as_CreateKey (c : Codec) (st : Stub) (key ref : String) :
    (∀ e, (CreateKeyWithImage c st key ref).1 = .error e ↔ (CreateKey c st key).1 = .error e) ∧
    (∀ r, (CreateKeyWithImage c st key ref).1 = .ok r →
      (CreateKey c st key).1 =
        .ok { message := "Key created successfully", key := r.key,
              transactionID := r.transactionID } ∧
      r.key = key ∧ r.transactionID = st.txID ∧ r.imageURL = ref ∧
      (CreateKeyWithImage c st key ref).2.state =
        put key (c.marshal { Consumed := false, TxID := st.txID, ImageURL := ref }) st.state ∧
      (CreateKey c st key).2.state =
        put key (c.marshal { Consumed := false, TxID := st.txID, ImageURL := "" }) st.state ∧
      (∀ k, k ≠ key →
        get (CreateKeyWithImage c st key ref).2.state k = get (CreateKey c st key).2.state k) ∧
      (c.Lawful →
        c.unmarshal (get (CreateKeyWithImage c st key ref).2.state key) =
          .ok { Consumed := false, TxID := st.txID, ImageURL := ref })) := by
  rcases Stub.nextFault_cases st with h | ⟨e, h⟩
  · by_cases hp : get st.state key = []
    · rcases Stub.nextFault_cases st.nextFault.2 with hw | ⟨e, hw⟩
      · rw [CreateKeyWithImage_created c ref h hp hw, CreateKey_created c h hp hw]
        refine ⟨fun e => by simp, ?_⟩
        intro r hr
        simp only [Except.ok.injEq] at hr
        subst hr
        refine ⟨rfl, rfl, rfl, rfl, rfl, rfl, ?_, ?_⟩
        · intro k hk
          simp only
          rw [get_put_other hk, get_put_other hk]
        · intro hc
          simp only
          rw [get_put_same]
          exact hc.1 _
      · rw [CreateKeyWithImage_putFailed c ref h hp hw, CreateKey_putFailed c h hp hw]
        exact ⟨fun e => by simp, fun r hr => by cases hr⟩
    · rw [CreateKeyWithImage_present c ref h hp, CreateKey_present c h hp]
      exact ⟨fun e => by simp, fun r hr => by cases hr⟩
  · rw [CreateKeyWithImage_readFailed c key ref h, CreateKey_readFailed c key h]
    exact ⟨fun e => by simp, fun r hr => by cases hr⟩

/-! ## Missing keys -/

/-- C15. When the read of world state succeeds, `ConsumeKey(k)` fails with "does not exist"
if and only if world state holds no bytes under `k`, and so does `ReadKey(k)`.  On a key
without bytes `ConsumeKey(k)` returns that error for `k` and writes nothing: world state
is unchanged and `k` still has no bytes. -/
theorem notFound_iff_absent (c : Codec) (st : Stub) (k : String)
    (hread : st.nextFault.1 = none) :
    ((∃ k2, (ConsumeKey c st k).1 = .error (.notFound k2)) ↔ get st.state k = []) ∧
    ((∃ k2, (ReadKey c st k).1 = .error (.notFound k2)) ↔ get st.state k = []) ∧
    (get st.state k = [] →
      (ConsumeKey c st k).1 = .error (.notFound k) ∧
      (ReadKey c st k).1 = .error (.notFound k) ∧
      (ConsumeKey c st k).2.state = st.state ∧
      get (ConsumeKey c st k).2.state k = []) := by
  refine ⟨⟨?_, ?_⟩, ⟨?_, ?_⟩, ?_⟩
  · rintro ⟨k2, hk2⟩
    by_contra hp
    cases hd : c.unmarshal (get st.state k) with
    | error e =>
      rw [ConsumeKey_unmarshalFailed c hread hp hd] at hk2
      cases hk2
    | ok d =>
      cases hcons : d.Consumed with
      | true =>
        rw [ConsumeKey_alreadyConsumed c hread hp hd hcons] at hk2
        cases hk2
      | false =>
        rcases Stub.nextFault_cases st.nextFault.2 with hw | ⟨e, hw⟩
        · rw [ConsumeKey_consumed c hread hp hd hcons hw] at hk2
          cases hk2
        · rw [ConsumeKey_updateFailed c hread hp hd hcons hw] at hk2
          cases hk2
  · intro ha
    exact ⟨k, by rw [ConsumeKey_notFound c hread ha]⟩
  · rintro ⟨k2, hk2⟩
    by_contra hp
    cases hd : c.unmarshal (get st.state k) with
    | error e =>
      rw [ReadKey_decodeFailed c hread hp hd] at hk2
      cases hk2
    | ok d =>
      rw [ReadKey_found c hread hp hd] at hk2
      cases hk2
  · intro ha
    exact ⟨k, by rw [ReadKey_notFound c hread ha]⟩
  · intro ha
    rw [ConsumeKey_notFound c hread ha, ReadKey_notFound c hread ha]
    refine ⟨rfl, rfl, Stub.nextFault_state st, ?_⟩
    simp only [Stub.nextFault_state]
    exact ha

/-- C15 at a concrete input: `ConsumeKey("k")` and `ReadKey("k")` on a world state that
holds only "j". -/
theorem notFound_iff_absent_witness :
    (ConsumeKey demoCodec
        (Stub.start "t2" [("j", demoCodec.marshal { Consumed := false, TxID := "t1", ImageURL := "" })])
        "k").1 = .error (.notFound "k") ∧
    (ReadKey demoCodec
        (Stub.start "t2" [("j", demoCodec.marshal { Consumed := false, TxID := "t1", ImageURL := "" })])
        "k").1 = .error (.notFound "k") :=
  let h := (notFound_iff_absent demoCodec
    (Stub.start "t2" [("j", demoCodec.marshal { Consumed := false, TxID := "t1", ImageURL := "" })])
    "k" rfl).2.2 rfl
  ⟨h.1, h.2.1⟩

/-! ## The reads: ReadKey and QueryAllKeys -/

/-- The response of `ReadKey` is read off the outcome of the next store call and the bytes
under the key. -/
theorem ReadKey_result (c : Codec) (st : Stub) (key : String) :
    (ReadKey c st key).1 =
      match st.nextFault.1 with
      | some e => .error (.readFailed e)
      | none =>
        if get st.state key = [] then .error (.notFound key)
        else
          match c.unmarshal (get st.state key) with
          | .error e => .error (.decodeFailed e)
          | .ok d =>
            .ok { key := key, consumed := d.Consumed, transactionID := d.TxID,
                  imageURL := if d.ImageURL ≠ "" then some d.ImageURL else none } := by
  rcases Stub.nextFault_cases st with h | ⟨e, h⟩
  · by_cases hp : get st.state key = []
    · rw [ReadKey_notFound c h hp, h]
      simp [hp]
    · cases hd : c.unmarshal (get st.state key) with
      | error e =>
        rw [ReadKey_decodeFailed c h hp hd, h]
        simp [hp]
      | ok d =>
        rw [ReadKey_found c h hp hd, h]
        simp [hp]
  · rw [ReadKey_readFailed c key h, h]

theorem nextFault_fst_congr {st1 st2 : Stub} (h : st1.faults = st2.faults) :
    st1.nextFault.1 = st2.nextFault.1 := by
  unfold Stub.nextFault
  rw [h]
  cases st2.faults <;> rfl

theorem nextFault_faults_congr {st1 st2 : Stub} (h : st1.faults = st2.faults) :
    st1.nextFault.2.faults = st2.nextFault.2.faults := by
  unfold Stub.nextFault
  rw [h]
  cases hf : st2.faults with
  | nil => exact h
  | cons f fs => rfl

/-- The result of the loop of `QueryAllKeys` depends on the stub only through the outcomes
of the store calls. -/
theorem queryLoop_congr (c : Codec) (l : List (String × Bytes)) (keys : Slice KeyEntry)
    (st1 st2 : Stub) (h : st1.faults = st2.faults) :
    (queryLoop c l keys st1).1 = (queryLoop c l keys st2).1 := by
  induction l generalizing keys st1 st2 with
  | nil => rfl
  | cons kv rest ih =>
    obtain ⟨k, v⟩ := kv
    have hf := nextFault_fst_congr h
    rcases Stub.nextFault_cases st1 with h1 | ⟨e, h1⟩
    · have h2 : st2.nextFault.1 = none := by rw [← hf, h1]
      cases hd : c.unmarshal v with
      | error e =>
        rw [queryLoop_unmarshalFailed c k rest keys h1 hd,
          queryLoop_unmarshalFailed c k rest keys h2 hd]
      | ok d =>
        rw [queryLoop_next c k rest keys h1 hd, queryLoop_next c k rest keys h2 hd]
        exact ih _ _ _ (nextFault_faults_congr h)
    · have h2 : st2.nextFault.1 = some e := by rw [← hf, h1]
      rw [queryLoop_iterateFailed c k v rest keys h1, queryLoop_iterateFailed c k v rest keys h2]

theorem QueryAllKeys_congr (c : Codec) (st1 st2 : Stub) (hs : st1.state = st2.state)
    (hf : st1.faults = st2.faults) : (QueryAllKeys c st1).1 = (QueryAllKeys c st2).1 := by
  have hn := nextFault_fst_congr hf
  rcases Stub.nextFault_cases st1 with h1 | ⟨e, h1⟩
  · have h2 : st2.nextFault.1 = none := by rw [← hn, h1]
    rw [(QueryAllKeys_opened c h1).1, (QueryAllKeys_opened c h2).1, hs]
    congr 1
    exact queryLoop_congr c _ _ _ _ (nextFault_faults_congr hf)
  · have h2 : st2.nextFault.1 = some e := by rw [← hn, h1]
    rw [QueryAllKeys_rangeFailed c h1, QueryAllKeys_rangeFailed c h2]

/-- A stub without store errors behaves as the stub with no outcome queued. -/
theorem reliable_queryLoop (c : Codec) (l : List (String × Bytes)) (keys : Slice KeyEntry)
    (st1 st2 : Stub) (h1 : st1.Reliable) (h2 : st2.Reliable) :
    (queryLoop c l keys st1).1 = (queryLoop c l keys st2).1 := by
  induction l generalizing keys st1 st2 with
  | nil => rfl
  | cons kv rest ih =>
    obtain ⟨k, v⟩ := kv
    cases hd : c.unmarshal v with
    | error e =>
      rw [queryLoop_unmarshalFailed c k rest keys h1.fst hd,
        queryLoop_unmarshalFailed c k rest keys h2.fst hd]
    | ok d =>
      rw [queryLoop_next c k rest keys h1.fst hd, queryLoop_next c k rest keys h2.fst hd]
      exact ih _ _ _ h1.snd h2.snd

theorem queryLoop_reliable (c : Codec) (l : List (String × Bytes)) (keys : Slice KeyEntry)
    (st : Stub) (h : st.Reliable) : (queryLoop c l keys st).2.Reliable := by
  induction l generalizing keys st with
  | nil => exact h
  | cons kv rest ih =>
    obtain ⟨k, v⟩ := kv
    cases hd : c.unmarshal v with
    | error e =>
      rw [queryLoop_unmarshalFailed c k rest keys h.fst hd]
      exact h.snd
    | ok d =>
      rw [queryLoop_next c k rest keys h.fst hd]
      exact ih _ _ h.snd

/-- C16. `ReadKey` and `QueryAllKeys` write nothing: whatever the response, error or not,
world state after the call is world state before it.  Their response is determined by
world state, the argument and the outcomes of the store calls: two calls on stubs with the
same world state and the same outcomes return the same response, whatever the transaction
ids and the iterators opened before; in particular two calls without store errors on the
same world state return the same response, and so does a call repeated within one
transaction. -/
theorem reads_are_pure (c : Codec) (st st2 : Stub) (key : String) :
    (ReadKey c st key).2.state = st.state ∧
    (QueryAllKeys c st).2.state = st.state ∧
    (st.state = st2.state → st.faults = st2.faults →
      (ReadKey c st key).1 = (ReadKey c st2 key).1 ∧
      (QueryAllKeys c st).1 = (QueryAllKeys c st2).1) ∧
    (st.state = st2.state → st.Reliable → st2.Reliable →
      (ReadKey c st key).1 = (ReadKey c st2 key).1 ∧
      (QueryAllKeys c st).1 = (QueryAllKeys c st2).1) ∧
    (st.Reliable →
      (ReadKey c (ReadKey c st key).2 key).1 = (ReadKey c st key).1 ∧
      (QueryAllKeys c (QueryAllKeys c st).2).1 = (QueryAllKeys c st).1) := by
  have hrel : ∀ s1 s2 : Stub, s1.state = s2.state → s1.Reliable → s2.Reliable →
      (ReadKey c s1 key).1 = (ReadKey c s2 key).1 ∧
      (QueryAllKeys c s1).1 = (QueryAllKeys c s2).1 := by
    intro s1 s2 hs h1 h2
    constructor
    · rw [ReadKey_result, ReadKey_result, h1.fst, h2.fst, hs]
    · rw [(QueryAllKeys_opened c h1.fst).1, (QueryAllKeys_opened c h2.fst).1, hs]
      congr 1
      exact reliable_queryLoop c _ _ _ _ h1.snd h2.snd
  refine ⟨ReadKey_world c st key, QueryAllKeys_world c st, ?_, hrel st st2, ?_⟩
  · intro hs hf
    constructor
    · rw [ReadKey_result, ReadKey_result, nextFault_fst_congr hf, hs]
    · exact QueryAllKeys_congr c st st2 hs hf
  · intro h
    constructor
    · have hr : (ReadKey c st key).2.Reliable := by
        rw [ReadKey_state]
        exact h.snd
      exact (hrel _ st (ReadKey_world c st key) hr h).1
    · have hq : (QueryAllKeys c st).2.Reliable := by
        intro f hf
        have hfaults : (QueryAllKeys c st).2.faults =
            (queryLoop c st.state none
              { st.nextFault.2 with opened := st.opened ++ [st.opened.length] }).2.faults := by
          rw [(QueryAllKeys_opened c h.fst).2]
          rfl
        rw [hfaults] at hf
        have hrel2 : Stub.Reliable
            { st.nextFault.2 with opened := st.opened ++ [st.opened.length] } := h.snd
        exact queryLoop_reliable c _ _ _ hrel2 f hf
      exact (hrel _ st (QueryAllKeys_world c st) hq h).2

/-! ## The iterator of QueryAllKeys -/

theorem queryLoop_iterators (c : Codec) (l : List (String × Bytes)) (keys : Slice KeyEntry)
    (st : Stub) :
    (queryLoop c l keys st).2.opened = st.opened ∧
    (queryLoop c l keys st).2.closed = st.closed := by
  induction l generalizing keys st with
  | nil => exact ⟨rfl, rfl⟩
  | cons kv rest ih =>
    obtain ⟨k, v⟩ := kv
    rcases Stub.nextFault_cases st with h | ⟨e, h⟩
    · cases hd : c.unmarshal v with
      | error e =>
        rw [queryLoop_unmarshalFailed c k rest keys h hd]
        exact ⟨Stub.nextFault_opened st, Stub.nextFault_closed st⟩
      | ok d =>
        rw [queryLoop_next c k rest keys h hd]
        obtain ⟨h1, h2⟩ := ih (Slice.append keys (KeyEntry.of k d)) st.nextFault.2
        exact ⟨h1.trans (Stub.nextFault_opened st), h2.trans (Stub.nextFault_closed st)⟩
    · rw [queryLoop_iterateFailed c k v rest keys h]
      exact ⟨Stub.nextFault_opened st, Stub.nextFault_closed st⟩

/-- C17. With the iterators opened and closed so far kept in the stub: when the opening of
the scan fails, `QueryAllKeys` opens no iterator and closes none; when it succeeds,
`QueryAllKeys` has, on return, opened one iterator and closed that iterator once, whatever
the response is (the list of keys, an error of `Next`, or a decode error), and nothing else
was opened or closed. -/
theorem QueryAllKeys_closes_iterator (c : Codec) (st : Stub) :
    (∀ e, st.nextFault.1 = some e →
      (QueryAllKeys c st).1 = .error (.rangeFailed e) ∧
      (QueryAllKeys c st).2.opened = st.opened ∧
      (QueryAllKeys c st).2.closed = st.closed) ∧
    (st.nextFault.1 = none →
      (QueryAllKeys c st).2.opened = st.opened ++ [st.opened.length] ∧
      (QueryAllKeys c st).2.closed = st.closed ++ [st.opened.length] ∧
      ((QueryAllKeys c st).2.closed.drop st.closed.length).count st.opened.length = 1) := by
  constructor
  · intro e h
    rw [QueryAllKeys_rangeFailed c h]
    exact ⟨rfl, Stub.nextFault_opened st, Stub.nextFault_closed st⟩
  · intro h
    obtain ⟨h1, h2⟩ := queryLoop_iterators c st.state none
      { st.nextFault.2 with opened := st.opened ++ [st.opened.length] }
    have ho : (QueryAllKeys c st).2.opened = st.opened ++ [st.opened.length] := by
      rw [(QueryAllKeys_opened c h).2]
      exact h1
    have hcl : (QueryAllKeys c st).2.closed = st.closed ++ [st.opened.length] := by
      rw [(QueryAllKeys_opened c h).2]
      show (queryLoop c st.state none _).2.closed ++ [st.opened.length] = _
      rw [h2]
      simp
    refine ⟨ho, hcl, ?_⟩
    rw [hcl]
    simp

/-! ## The empty world state -/

/-- C18. On a world state without entries, when the scan opens, `QueryAllKeys` succeeds and
the field `keys` of its response is the nil slice (`var keys []map[string]interface{}`, to
which nothing was appended), which `json.Marshal` writes as `null`; `CreateBulkKeys` of the
empty list returns in `createdKeys` the empty non-nil slice `[]string{}`, written `[]`. -/
theorem QueryAllKeys_empty_is_nil (c : Codec) (st : Stub) (hs : st.state = [])
    (hopen : st.nextFault.1 = none) :
    (QueryAllKeys c st).1 =
      .ok { message := "All keys retrieved successfully", keys := none } ∧
    (CreateBulkKeys c st []).1 =
      .ok { message := "Bulk key creation completed", createdKeys := some [],
            failedKeys := [], transactionID := st.txID } ∧
    (none : Slice KeyEntry) ≠ some [] := by
  refine ⟨?_, rfl, fun h => by cases h⟩
  rw [(QueryAllKeys_opened c hopen).1, hs]
  rfl

/-- C18 at the failing input: the empty world state, in a transaction without store
errors. -/
theorem QueryAllKeys_empty_is_nil_witness :
    (QueryAllKeys demoCodec (Stub.start "t1" [])).1 =
      .ok { message := "All keys retrieved successfully", keys := none } :=
  (QueryAllKeys_empty_is_nil demoCodec (Stub.start "t1" []) rfl rfl).1

/-! ## The empty image URL -/

/-- C19. `CreateKeyWithImage(key, "")` and `CreateKey(key)`, on the same stub, leave the
same stub, hence the same world state with the same bytes under `key`, and one returns an
error exactly when the other does, the same error.  `ReadKey(key)` afterwards returns the
same response after either; with a lawful codec, after success, that response has no
field `imageURL`. -/
theorem empty_image_is_no_image (c : Codec) (st : Stub) (key : String) :
    (CreateKeyWithImage c st key "").2 = (CreateKey c st key).2 ∧
    (∀ e, (CreateKeyWithImage c st key "").1 = .error e ↔ (CreateKey c st key).1 = .error e) ∧
    ((∃ r, (CreateKeyWithImage c st key "").1 = .ok r) ↔ ∃ r, (CreateKey c st key).1 = .ok r) ∧
    (∀ rd1 rd2 : Stub, rd1.state = (CreateKeyWithImage c st key "").2.state →
      rd2.state = (CreateKey c st key).2.state → rd1.faults = rd2.faults →
      (ReadKey c rd1 key).1 = (ReadKey c rd2 key).1) ∧
    (c.Lawful → ∀ r, (CreateKeyWithImage c st key "").1 = .ok r →
      ∀ rd : Stub, rd.nextFault.1 = none → rd.state = (CreateKeyWithImage c st key "").2.state →
      (ReadKey c rd key).1 =
        .ok { key := key, consumed := false, transactionID := st.txID, imageURL := none }) := by
  have hstub : (CreateKeyWithImage c st key "").2 = (CreateKey c st key).2 := by
    rcases Stub.nextFault_cases st with h | ⟨e, h⟩
    · by_cases hp : get st.state key = []
      · rcases Stub.nextFault_cases st.nextFault.2 with hw | ⟨e, hw⟩
        · rw [CreateKeyWithImage_created c "" h hp hw, CreateKey_created c h hp hw]
        · rw [CreateKeyWithImage_putFailed c "" h hp hw, CreateKey_putFailed c h hp hw]
      · rw [CreateKeyWithImage_present c "" h hp, CreateKey_present c h hp]
    · rw [CreateKeyWithImage_readFailed c key "" h, CreateKey_readFailed c key h]
  refine ⟨hstub, ?_, ?_, ?_, ?_⟩
  · intro e
    rcases Stub.nextFault_cases st with h | ⟨e2, h⟩
    · by_cases hp : get st.state key = []
      · rcases Stub.nextFault_cases st.nextFault.2 with hw | ⟨e3, hw⟩
        · rw [CreateKeyWithImage_created c "" h hp hw, CreateKey_created c h hp hw]
          simp
        · rw [CreateKeyWithImage_putFailed c "" h hp hw, CreateKey_putFailed c h hp hw]
          simp
      · rw [CreateKeyWithImage_present c "" h hp, CreateKey_present c h hp]
        simp
    · rw [CreateKeyWithImage_readFailed c key "" h, CreateKey_readFailed c key h]
      simp
  · rcases Stub.nextFault_cases st with h | ⟨e2, h⟩
    · by_cases hp : get st.state key = []
      · rcases Stub.nextFault_cases st.nextFault.2 with hw | ⟨e3, hw⟩
        · rw [CreateKeyWithImage_created c "" h hp hw, CreateKey_created c h hp hw]
          exact ⟨fun _ => ⟨_, rfl⟩, fun _ => ⟨_, rfl⟩⟩
        · rw [CreateKeyWithImage_putFailed c "" h hp hw, CreateKey_putFailed c h hp hw]
          simp
      · rw [CreateKeyWithImage_present c "" h hp, CreateKey_present c h hp]
        simp
    · rw [CreateKeyWithImage_readFailed c key "" h, CreateKey_readFailed c key h]
      simp
  · intro rd1 rd2 h1 h2 hf
    rw [ReadKey_result, ReadKey_result, nextFault_fst_congr hf, h1, h2, hstub]
  · intro hc r hr rd hread hstate
    rcases CreateKeyWithImage_outcome c st key "" with ⟨e, he, _⟩ | ⟨_, _, _, _, hs⟩
    · rw [he] at hr; cases hr
    · have hget : get rd.state key =
          c.marshal { Consumed := false, TxID := st.txID, ImageURL := "" } := by
        rw [hstate, hs, get_put_same]
      have hd := hc.1 { Consumed := false, TxID := st.txID, ImageURL := "" }
      rw [← hget] at hd
      rw [ReadKey_found c hread (hc.ne_nil_of_decodes hd) hd]
      simp

/-! ## Lemmas: the occurrences of a key in CreateBulkKeys -/

theorem bulkStep_of_creates (c : Codec) {st : Stub} {key : String} (cr : Slice String)
    (fk : List (String × BulkFailure)) (h : st.Creates key) :
    bulkStep c (st, cr, fk) key =
      ({ st.nextFault.2.nextFault.2 with
         state := put key (c.marshal { Consumed := false, TxID := st.txID, ImageURL := "" })
           st.state },
       some (Slice.elems cr ++ [key]), fk) :=
  bulkStep_created c cr fk h.1 h.2.1 h.2.2

theorem bulkStep_of_not_creates (c : Codec) {st : Stub} {key : String} (cr : Slice String)
    (fk : List (String × BulkFailure)) (h : ¬ st.Creates key) :
    ∃ r st1, bulkStep c (st, cr, fk) key = (st1, cr, put key r fk) ∧ st1.state = st.state := by
  rcases Stub.nextFault_cases st with h0 | ⟨e, h0⟩
  · by_cases hp : get st.state key = []
    · rcases Stub.nextFault_cases st.nextFault.2 with hw | ⟨e, hw⟩
      · exact absurd ⟨h0, hp, hw⟩ h
      · exact ⟨_, _, bulkStep_putFailed c cr fk h0 hp hw, by simp⟩
    · exact ⟨_, _, bulkStep_present c cr fk h0 hp, by simp⟩
  · exact ⟨_, _, bulkStep_readFailed c cr fk key h0, by simp⟩

theorem bulkLoop_snoc (c : Codec) (xs : List String) (x : String)
    (acc : Stub × Slice String × List (String × BulkFailure)) :
    bulkLoop c (xs ++ [x]) acc = bulkStep c (bulkLoop c xs acc) x := by
  rw [bulkLoop_append]
  rfl

/-- A key among the created keys was created by one of its occurrences. -/
theorem created_has_occurrence (c : Codec) (keys : List String) (st : Stub) (k : String)
    (hk : k ∈ Slice.elems (bulkLoop c keys (st, some [], [])).2.1) :
    ∃ pre post, keys = pre ++ k :: post ∧ (bulkReached c st pre).Creates k := by
  induction keys using List.reverseRecOn with
  | nil => simp [bulkLoop_nil, Slice.elems] at hk
  | append_singleton xs x ih =>
    rw [bulkLoop_snoc] at hk
    have hmid : bulkReached c st xs = (bulkLoop c xs (st, some [], [])).1 := rfl
    rcases hacc : bulkLoop c xs (st, some [], []) with ⟨mid, cr, fk⟩
    rw [hacc] at hk ih hmid
    simp only at hmid ih
    have hold : k ∈ Slice.elems cr → ∃ pre post, xs ++ [x] = pre ++ k :: post ∧
        (bulkReached c st pre).Creates k := by
      intro h
      obtain ⟨pre, post, hsplit, hc⟩ := ih h
      exact ⟨pre, post ++ [x], by rw [hsplit]; simp, hc⟩
    by_cases hcr : mid.Creates x
    · rw [bulkStep_of_creates c cr fk hcr] at hk
      rcases List.mem_append.mp hk with h | h
      · exact hold h
      · have hkx : k = x := by simpa using h
        subst hkx
        exact ⟨xs, [], rfl, by rw [hmid]; exact hcr⟩
    · obtain ⟨r, st1, hs, -⟩ := bulkStep_of_not_creates c cr fk hcr
      rw [hs] at hk
      exact hold hk

/-- A key among the failed keys failed at one of its occurrences. -/
theorem failed_has_occurrence (c : Codec) (keys : List String) (st : Stub) (k : String)
    (hk : k ∈ (bulkLoop c keys (st, some [], [])).2.2.map Prod.fst) :
    ∃ pre post, keys = pre ++ k :: post ∧ ¬ (bulkReached c st pre).Creates k := by
  induction keys using List.reverseRecOn with
  | nil => simp [bulkLoop_nil] at hk
  | append_singleton xs x ih =>
    rw [bulkLoop_snoc] at hk
    have hmid : bulkReached c st xs = (bulkLoop c xs (st, some [], [])).1 := rfl
    rcases hacc : bulkLoop c xs (st, some [], []) with ⟨mid, cr, fk⟩
    rw [hacc] at hk ih hmid
    simp only at hmid ih
    have hold : k ∈ fk.map Prod.fst → ∃ pre post, xs ++ [x] = pre ++ k :: post ∧
        ¬ (bulkReached c st pre).Creates k := by
      intro h
      obtain ⟨pre, post, hsplit, hc⟩ := ih h
      exact ⟨pre, post ++ [x], by rw [hsplit]; simp, hc⟩
    by_cases hcr : mid.Creates x
    · rw [bulkStep_of_creates c cr fk hcr] at hk
      exact hold hk
    · obtain ⟨r, st1, hs, -⟩ := bulkStep_of_not_creates c cr fk hcr
      rw [hs] at hk
      rcases (keys_put x k r fk).mp hk with h | h
      · subst h
        exact ⟨xs, [], rfl, by rw [hmid]; exact hcr⟩
      · exact hold h

/-- What an occurrence does shows in the response: a creating occurrence puts the key in
the created keys, any other one in the failed keys. -/
theorem occurrence_outcome (c : Codec) (st : Stub) (pre post : List String) (k : String) :
    ((bulkReached c st pre).Creates k →
      k ∈ Slice.elems (bulkLoop c (pre ++ k :: post) (st, some [], [])).2.1) ∧
    (¬ (bulkReached c st pre).Creates k →
      k ∈ (bulkLoop c (pre ++ k :: post) (st, some [], [])).2.2.map Prod.fst) := by
  rw [bulkLoop_append, bulkLoop_cons]
  have hmid : bulkReached c st pre = (bulkLoop c pre (st, some [], [])).1 := rfl
  rcases hacc : bulkLoop c pre (st, some [], []) with ⟨mid, cr, fk⟩
  rw [hacc] at hmid
  simp only at hmid
  rw [hmid]
  constructor
  · intro h
    rw [bulkStep_of_creates c cr fk h]
    exact bulkLoop_created_mono c post _ _ fk (by simp [Slice.elems])
  · intro h
    obtain ⟨r, st1, hs, -⟩ := bulkStep_of_not_creates c cr fk h
    rw [hs]
    exact bulkLoop_failed_mono c post st1 cr _ ((keys_put k k r fk).mpr (Or.inl rfl))

/-- After a creating occurrence, or once the key has bytes, the key has bytes at every
later round. -/
theorem present_after (c : Codec) (hc : c.Lawful) (st : Stub) (pre mid : List String)
    (k : String)
    (h : (bulkReached c st pre).Creates k ∨ get (bulkReached c st pre).state k ≠ []) :
    get (bulkReached c st (pre ++ k :: mid)).state k ≠ [] := by
  have hmid : bulkReached c st pre = (bulkLoop c pre (st, some [], [])).1 := rfl
  have hlater : bulkReached c st (pre ++ k :: mid) =
      (bulkLoop c mid (bulkStep c (bulkLoop c pre (st, some [], [])) k)).1 := by
    unfold bulkReached
    rw [bulkLoop_append, bulkLoop_cons]
  rw [hlater]
  rcases hacc : bulkLoop c pre (st, some [], []) with ⟨m, cr, fk⟩
  rw [hacc] at hmid
  simp only at hmid
  rw [hmid] at h
  have hstep : get (bulkStep c (m, cr, fk) k).1.state k ≠ [] := by
    rcases h with h | h
    · rw [bulkStep_of_creates c cr fk h]
      simp only [get_put_same]
      exact hc.marshal_ne_nil _
    · have hu := bulkStep_untouched c (m, cr, fk) k k h
      rw [hu]
      exact h
  have hu := bulkLoop_untouched c mid (bulkStep c (m, cr, fk) k) k hstep
  rw [hu]
  exact hstep

theorem bulkLoop_reliable (c : Codec) (keys : List String) (st : Stub) (cr : Slice String)
    (fk : List (String × BulkFailure)) (hst : st.Reliable) :
    (bulkLoop c keys (st, cr, fk)).1.Reliable := by
  induction keys generalizing st cr fk with
  | nil => exact hst
  | cons k ks ih =>
    rw [bulkLoop_cons]
    by_cases hp : get st.state k = []
    · rw [bulkStep_created c cr fk hst.fst hp hst.snd.fst]
      exact ih _ _ _ hst.snd.snd
    · rw [bulkStep_present c cr fk hst.fst hp]
      exact ih _ _ _ hst.snd

/-- Two occurrences of `k` in a list, one after the prefix `p1`, one after `p2`, with
`p1 ≠ p2`: one of the prefixes goes through the other occurrence. -/
theorem two_occurrences {k : String} {p1 q1 p2 q2 : List String}
    (h : p1 ++ k :: q1 = p2 ++ k :: q2) (hne : p1 ≠ p2) :
    (∃ mid, p2 = p1 ++ k :: mid ∧ q1 = mid ++ k :: q2) ∨
    (∃ mid, p1 = p2 ++ k :: mid ∧ q2 = mid ++ k :: q1) := by
  rcases List.append_eq_append_iff.mp h with ⟨a, ha, hb⟩ | ⟨a, ha, hb⟩
  · cases a with
    | nil => exact absurd (by simpa using ha.symm) hne
    | cons x a =>
      left
      have hx : k = x := by
        have := List.head_eq_of_cons_eq hb
        exact this
      subst hx
      exact ⟨a, ha, List.tail_eq_of_cons_eq hb⟩
  · cases a with
    | nil => exact absurd (by simpa using ha) hne
    | cons x a =>
      right
      have hx : k = x := List.head_eq_of_cons_eq hb
      subst hx
      exact ⟨a, ha, List.tail_eq_of_cons_eq hb⟩

theorem bulkLoop_created_nodup (c : Codec) (hc : c.Lawful) (keys : List String) (st : Stub)
    (cr : Slice String) (fk : List (String × BulkFailure))
    (hnd : (Slice.elems cr).Nodup) (hpres : ∀ x ∈ Slice.elems cr, get st.state x ≠ []) :
    (Slice.elems (bulkLoop c keys (st, cr, fk)).2.1).Nodup := by
  induction keys generalizing st cr fk with
  | nil => exact hnd
  | cons k ks ih =>
    rw [bulkLoop_cons]
    rcases bulkStep_cases c st cr fk k with ⟨r, st1, hs, hst, -⟩ | ⟨habs, st1, hs, hst, -⟩
    · rw [hs]
      exact ih st1 cr _ hnd (by rw [hst]; exact hpres)
    · rw [hs]
      have hk : k ∉ Slice.elems cr := fun h => hpres k h habs
      apply ih st1 (some (Slice.elems cr ++ [k])) fk
      · show (Slice.elems cr ++ [k]).Nodup
        rw [List.nodup_append]
        refine ⟨hnd, List.nodup_singleton k, ?_⟩
        intro x hx hx2
        have : x = k := by simpa using hx2
        exact hk (this ▸ hx)
      · intro x hx
        rw [hst]
        have hx2 : x ∈ Slice.elems cr ++ [k] := hx
        rcases List.mem_append.mp hx2 with h | h
        · have hne : x ≠ k := fun e => hk (e ▸ h)
          rw [get_put_other hne]
          exact hpres x h
        · have : x = k := by simpa using h
          rw [this, get_put_same]
          exact hc.marshal_ne_nil _

theorem bulkLoop_created_sublist (c : Codec) (keys : List String) (st : Stub)
    (cr : Slice String) (fk : List (String × BulkFailure)) :
    ∃ l, Slice.elems (bulkLoop c keys (st, cr, fk)).2.1 = Slice.elems cr ++ l ∧
      l.Sublist keys := by
  induction keys generalizing st cr fk with
  | nil => exact ⟨[], by simp [bulkLoop_nil], List.Sublist.refl _⟩
  | cons k ks ih =>
    rw [bulkLoop_cons]
    rcases bulkStep_cases c st cr fk k with ⟨r, st1, hs, -, -⟩ | ⟨-, st1, hs, -, -⟩
    · rw [hs]
      obtain ⟨l, h1, h2⟩ := ih st1 cr (put k r fk)
      exact ⟨l, h1, List.Sublist.cons k h2⟩
    · rw [hs]
      obtain ⟨l, h1, h2⟩ := ih st1 (some (Slice.elems cr ++ [k])) fk
      refine ⟨k :: l, ?_, List.Sublist.cons₂ k h2⟩
      rw [h1]
      simp [Slice.elems]

theorem bulkLoop_created_absent (c : Codec) (keys : List String) (st : Stub)
    (cr : Slice String) (fk : List (String × BulkFailure)) (x : String)
    (hx : x ∈ Slice.elems (bulkLoop c keys (st, cr, fk)).2.1) :
    x ∈ Slice.elems cr ∨ get st.state x = [] := by
  induction keys generalizing st cr fk with
  | nil => exact Or.inl hx
  | cons k ks ih =>
    rw [bulkLoop_cons] at hx
    rcases bulkStep_cases c st cr fk k with ⟨r, st1, hs, hst, -⟩ | ⟨habs, st1, hs, hst, -⟩
    · rw [hs] at hx
      rcases ih st1 cr _ hx with h | h
      · exact Or.inl h
      · rw [hst] at h; exact Or.inr h
    · rw [hs] at hx
      rcases ih st1 (some (Slice.elems cr ++ [k])) fk hx with h | h
      · have h2 : x ∈ Slice.elems cr ++ [k] := h
        rcases List.mem_append.mp h2 with h3 | h3
        · exact Or.inl h3
        · have : x = k := by simpa using h3
          exact Or.inr (this ▸ habs)
      · rw [hst] at h
        by_cases hxk : x = k
        · exact Or.inr (hxk ▸ habs)
        · rw [get_put_other hxk] at h
          exact Or.inr h

/-- A key is among the created keys and among the failed keys exactly when two of its
occurrences did different things: one created it, the other one failed. -/
theorem both_iff_two_occurrences (c : Codec) (st : Stub) (keys : List String)
    (k : String) :
    (k ∈ Slice.elems (bulkLoop c keys (st, some [], [])).2.1 ∧
      k ∈ (bulkLoop c keys (st, some [], [])).2.2.map Prod.fst) ↔
    ∃ pre mid post, keys = pre ++ k :: (mid ++ k :: post) ∧
      (((bulkReached c st pre).Creates k ∧ ¬ (bulkReached c st (pre ++ k :: mid)).Creates k) ∨
       (¬ (bulkReached c st pre).Creates k ∧ (bulkReached c st (pre ++ k :: mid)).Creates k)) := by
  constructor
  · rintro ⟨hcr, hfl⟩
    obtain ⟨p1, q1, h1, hc1⟩ := created_has_occurrence c keys st k hcr
    obtain ⟨p2, q2, h2, hc2⟩ := failed_has_occurrence c keys st k hfl
    have hne : p1 ≠ p2 := fun e => hc2 (e ▸ hc1)
    rcases two_occurrences (h1.symm.trans h2) hne with ⟨mid, hp, hq⟩ | ⟨mid, hp, hq⟩
    · refine ⟨p1, mid, q2, by rw [h1, hq], Or.inl ⟨hc1, ?_⟩⟩
      rw [← hp]; exact hc2
    · refine ⟨p2, mid, q1, by rw [h2, hq], Or.inr ⟨hc2, ?_⟩⟩
      rw [← hp]; exact hc1
  · rintro ⟨pre, mid, post, hkeys, h⟩
    have hkeys2 : keys = (pre ++ k :: mid) ++ k :: post := by rw [hkeys]; simp
    have o1 := occurrence_outcome c st pre (mid ++ k :: post) k
    have o2 := occurrence_outcome c st (pre ++ k :: mid) post k
    rw [← hkeys] at o1
    rw [← hkeys2] at o2
    rcases h with ⟨ha, hb⟩ | ⟨ha, hb⟩
    · exact ⟨o1.1 ha, o2.2 hb⟩
    · exact ⟨o2.1 hb, o1.2 ha⟩

/-! ## The accounting of CreateBulkKeys -/

/-- Without store errors a round creates the key exactly when the key has no bytes. -/
theorem reliable_creates_iff {st : Stub} (hst : st.Reliable) (k : String) :
    st.Creates k ↔ get st.state k = [] :=
  ⟨fun h => h.2.1, fun h => ⟨hst.fst, h, hst.snd.fst⟩⟩

theorem bulkReached_reliable (c : Codec) {st : Stub} (hst : st.Reliable) (pre : List String) :
    (bulkReached c st pre).Reliable :=
  bulkLoop_reliable c pre st (some []) [] hst

/-- C20, as amended. For every stub (world state, pattern of store errors), every list
`keys` and a lawful codec, `CreateBulkKeys(keys)` returns a response in which:
`createdKeys` has no duplicate, is a sub-sequence of `keys`, and holds only keys that had no
bytes before the call; every key of `keys` is in `createdKeys` or is a key of `failedKeys`;
every key of `failedKeys` occurs in `keys`; a key is in both exactly when two of its
occurrences did different things, one creating it and the other failing, in either order;
without store errors the creating occurrence is the earlier one and the failing one the
later one; and the two are not disjoint in general: on the empty world state the list
`[k, k]` puts `k` in both. -/
theorem CreateBulkKeys_accounting (c : Codec) (hc : c.Lawful) (st : Stub) (keys : List String) :
    ∃ r, (CreateBulkKeys c st keys).1 = .ok r ∧
      (Slice.elems r.createdKeys).Nodup ∧
      (Slice.elems r.createdKeys).Sublist keys ∧
      (∀ k ∈ Slice.elems r.createdKeys, get st.state k = []) ∧
      (∀ k ∈ keys, k ∈ Slice.elems r.createdKeys ∨ k ∈ r.failedKeys.map Prod.fst) ∧
      (∀ k ∈ r.failedKeys.map Prod.fst, k ∈ keys) ∧
      (∀ k, (k ∈ Slice.elems r.createdKeys ∧ k ∈ r.failedKeys.map Prod.fst) ↔
        ∃ pre mid post, keys = pre ++ k :: (mid ++ k :: post) ∧
          (((bulkReached c st pre).Creates k ∧
              ¬ (bulkReached c st (pre ++ k :: mid)).Creates k) ∨
           (¬ (bulkReached c st pre).Creates k ∧
              (bulkReached c st (pre ++ k :: mid)).Creates k))) ∧
      (st.Reliable →
        ∀ k, (k ∈ Slice.elems r.createdKeys ∧ k ∈ r.failedKeys.map Prod.fst) ↔
          ∃ pre mid post, keys = pre ++ k :: (mid ++ k :: post) ∧
            (bulkReached c st pre).Creates k ∧
            ¬ (bulkReached c st (pre ++ k :: mid)).Creates k) ∧
      (∀ t k, ∃ r2, (CreateBulkKeys c (Stub.start t []) [k, k]).1 = .ok r2 ∧
        k ∈ Slice.elems r2.createdKeys ∧ k ∈ r2.failedKeys.map Prod.fst) := by
  rw [CreateBulkKeys_eq]
  refine ⟨_, rfl, ?_, ?_, ?_, ?_, ?_, ?_, ?_, ?_⟩
  · exact bulkLoop_created_nodup c hc keys st (some []) [] List.nodup_nil
      (fun x hx => absurd hx (List.not_mem_nil x))
  · obtain ⟨l, h1, h2⟩ := bulkLoop_created_sublist c keys st (some []) []
    simp only
    rw [h1]
    simpa [Slice.elems] using h2
  · intro k hk
    rcases bulkLoop_created_absent c keys st (some []) [] k hk with h | h
    · exact absurd h (List.not_mem_nil k)
    · exact h
  · intro k hk
    obtain ⟨pre, post, hsplit⟩ := List.append_of_mem hk
    have o := occurrence_outcome c st pre post k
    rw [← hsplit] at o
    by_cases hcr : (bulkReached c st pre).Creates k
    · exact Or.inl (o.1 hcr)
    · exact Or.inr (o.2 hcr)
  · intro k hk
    obtain ⟨pre, post, hsplit, -⟩ := failed_has_occurrence c keys st k hk
    rw [hsplit]
    simp
  · intro k
    exact both_iff_two_occurrences c st keys k
  · intro hst k
    rw [both_iff_two_occurrences c st keys k]
    constructor
    · rintro ⟨pre, mid, post, hkeys, h⟩
      rcases h with h | ⟨ha, hb⟩
      · exact ⟨pre, mid, post, hkeys, h⟩
      · exfalso
        have hp : get (bulkReached c st pre).state k ≠ [] := fun e =>
          ha ((reliable_creates_iff (bulkReached_reliable c hst pre) k).mpr e)
        exact present_after c hc st pre mid k (Or.inr hp) hb.2.1
    · rintro ⟨pre, mid, post, hkeys, h⟩
      exact ⟨pre, mid, post, hkeys, Or.inl h⟩
  · intro t k
    rw [CreateBulkKeys_eq]
    refine ⟨_, rfl, ?_⟩
    apply (both_iff_two_occurrences c (Stub.start t []) [k, k] k).mpr
    refine ⟨[], [], [], rfl, Or.inl ⟨⟨rfl, rfl, rfl⟩, ?_⟩⟩
    intro h
    exact present_after c hc (Stub.start t []) [] [] k (Or.inl ⟨rfl, rfl, rfl⟩) h.2.1

/-- C20 at a concrete input, with a store error: the first read of "a" fails, the second
occurrence creates "a". -/
theorem CreateBulkKeys_accounting_witness :
    ∃ r, (CreateBulkKeys demoCodec
        { txID := "t1", state := [], faults := [some "read error"], opened := [], closed := [] }
        ["a", "a"]).1 = .ok r ∧
      (Slice.elems r.createdKeys).Nodup ∧
      (∀ k ∈ ["a", "a"], k ∈ Slice.elems r.createdKeys ∨ k ∈ r.failedKeys.map Prod.fst) :=
  let h := CreateBulkKeys_accounting demoCodec demoCodec_lawful
    { txID := "t1", state := [], faults := [some "read error"], opened := [], closed := [] }
    ["a", "a"]
  ⟨h.choose, h.choose_spec.1, h.choose_spec.2.1, h.choose_spec.2.2.2.2.1⟩

/-- C20 as stated fails when a store call fails: in a transaction whose first read fails,
`CreateBulkKeys(["a", "a"])` on the empty world state records the failure of the first
occurrence of "a" and creates "a" at the second one, so "a" is in `createdKeys` and in
`failedKeys` although no occurrence created it before a later one failed. -/
theorem CreateBulkKeys_accounting_counterexample :
    ∃ r, (CreateBulkKeys demoCodec
        { txID := "t1", state := [], faults := [some "read error"], opened := [], closed := [] }
        ["a", "a"]).1 = .ok r ∧
      r.createdKeys = some ["a"] ∧
      r.failedKeys = [("a", BulkFailure.readFailed "read error")] ∧
      "a" ∈ Slice.elems r.createdKeys ∧ "a" ∈ r.failedKeys.map Prod.fst ∧
      ¬ ∃ pre mid post, ["a", "a"] = pre ++ "a" :: (mid ++ "a" :: post) ∧
        (bulkReached demoCodec
          { txID := "t1", state := [], faults := [some "read error"], opened := [], closed := [] }
          pre).Creates "a" ∧
        ¬ (bulkReached demoCodec
          { txID := "t1", state := [], faults := [some "read error"], opened := [], closed := [] }
          (pre ++ "a" :: mid)).Creates "a" := by
  refine ⟨{ message := "Bulk key creation completed", createdKeys := some ["a"],
            failedKeys := [("a", BulkFailure.readFailed "read error")],
            transactionID := "t1" }, rfl, rfl, rfl, List.mem_cons_self _ _,
          List.mem_cons_self _ _, ?_⟩
  rintro ⟨pre, mid, post, h, hcr, -⟩
  cases pre with
  | nil =>
    have h1 : (some "read error" : Option String) = none := hcr.1
    cases h1
  | cons x pre =>
    have hlen := congrArg List.length h
    simp at hlen
    omega

end KeyGen
